import Mathlib

/-!
Verification development for the mcpo / Open WebUI reconciliation extension.

The definitions below are a shallow embedding of the TypeScript sources:
pure string and list manipulation is translated directly, stateful
remote-API interaction is modelled by explicit state passing, and the
JavaScript `JSON.parse` / `JSON.stringify(v, null, 2)` pair is modelled by
an executable parser and pretty-printer over an inductive JSON value type
(integers stand in for JSON numbers; the documents the extension handles
only use strings, objects and arrays).
-/

set_option maxHeartbeats 4000000
set_option maxRecDepth 4000

/-- JSON values as produced by a tolerant `JSON.parse` model. -/
inductive Json where
  | null : Json
  | bool (b : Bool) : Json
  | num (n : Int) : Json
  | str (s : String) : Json
  | arr (xs : List Json) : Json
  | obj (fields : List (String × Json)) : Json

mutual

def Json.beq : Json → Json → Bool
  | .null, .null => true
  | .bool a, .bool b => a == b
  | .num a, .num b => a == b
  | .str a, .str b => a == b
  | .arr xs, .arr ys => Json.beqA xs ys
  | .obj xs, .obj ys => Json.beqO xs ys
  | _, _ => false

def Json.beqA : List Json → List Json → Bool
  | [], [] => true
  | x :: xs, y :: ys => Json.beq x y && Json.beqA xs ys
  | _, _ => false

def Json.beqO : List (String × Json) → List (String × Json) → Bool
  | [], [] => true
  | x :: xs, y :: ys => (x.1 == y.1 && Json.beq x.2 y.2) && Json.beqO xs ys
  | _, _ => false

end

mutual

theorem Json.beq_iff : ∀ a b : Json, Json.beq a b = true ↔ a = b
  | .null, b => by cases b <;> simp [Json.beq]
  | .bool a, b => by cases b <;> simp [Json.beq]
  | .num a, b => by cases b <;> simp [Json.beq]
  | .str a, b => by cases b <;> simp [Json.beq]
  | .arr xs, b => by
      cases b <;> simp [Json.beq]
      exact Json.beqA_iff xs _
  | .obj fs, b => by
      cases b <;> simp [Json.beq]
      exact Json.beqO_iff fs _

theorem Json.beqA_iff : ∀ xs ys : List Json, Json.beqA xs ys = true ↔ xs = ys
  | [], ys => by cases ys <;> simp [Json.beqA]
  | x :: xs, ys => by
      cases ys with
      | nil => simp [Json.beqA]
      | cons y ys =>
          simp [Json.beqA, Bool.and_eq_true, Json.beq_iff x y, Json.beqA_iff xs ys]

theorem Json.beqO_iff : ∀ xs ys : List (String × Json), Json.beqO xs ys = true ↔ xs = ys
  | [], ys => by cases ys <;> simp [Json.beqO]
  | x :: xs, ys => by
      cases ys with
      | nil => simp [Json.beqO]
      | cons y ys =>
          simp [Json.beqO, Bool.and_eq_true, Json.beq_iff x.2 y.2, Json.beqO_iff xs ys,
            Prod.ext_iff]

end

instance : DecidableEq Json := fun a b => decidable_of_iff _ (Json.beq_iff a b)

/-- Property access `o[k]` on a JavaScript object parsed from JSON:
the value at the first matching key, `none` when absent. -/
def objGet : List (String × Json) → String → Option Json
  | [], _ => none
  | f :: fs, k => if f.1 = k then some f.2 else objGet fs k

/-- Assignment `o[k] = v` to a property that may or may not exist: an existing
key keeps its position, a new key is appended (JavaScript object semantics). -/
def objSet : List (String × Json) → String → Json → List (String × Json)
  | [], k, v => [(k, v)]
  | f :: fs, k, v => if f.1 = k then (k, v) :: fs else f :: objSet fs k v

/-- Replacement of the value at the first occurrence of an existing key,
leaving the object unchanged when the key is absent. -/
def objReplaceFirst : List (String × Json) → String → Json → List (String × Json)
  | [], _, _ => []
  | f :: fs, k, v => if f.1 = k then (k, v) :: fs else f :: objReplaceFirst fs k v

/-- The `delete o[k]` operation on a JavaScript object. -/
def objDelete : List (String × Json) → String → List (String × Json)
  | [], _ => []
  | f :: fs, k => if f.1 = k then fs else f :: objDelete fs k

/-- Spreading `\x7b...v\x7d` of an unknown value: objects contribute their
fields, every other value contributes nothing. -/
def asObjFields : Json → List (String × Json)
  | .obj fs => fs
  | _ => []

/-- Lookup in a string-keyed record, first occurrence wins (the maps built
below have pairwise distinct keys, where JavaScript semantics coincide). -/
def lookupStr : List (String × String) → String → Option String
  | [], _ => none
  | p :: ps, k => if p.1 = k then some p.2 else lookupStr ps k

theorem objGet_objReplaceFirst_self (fs : List (String × Json)) (k : String) (v w : Json)
    (h : objGet fs k = some w) : objGet (objReplaceFirst fs k v) k = some v := by
  induction fs with
  | nil => simp [objGet] at h
  | cons f fs ih =>
      by_cases hk : f.1 = k
      · simp [objGet, objReplaceFirst, hk]
      · simp [objGet, objReplaceFirst, hk] at h ⊢
        exact ih h

theorem objReplaceFirst_objReplaceFirst (fs : List (String × Json)) (k : String) (a b : Json) :
    objReplaceFirst (objReplaceFirst fs k a) k b = objReplaceFirst fs k b := by
  induction fs with
  | nil => simp [objReplaceFirst]
  | cons f fs ih =>
      by_cases hk : f.1 = k
      · simp [objReplaceFirst, hk]
      · simp [objReplaceFirst, hk, ih]

theorem objReplaceFirst_of_objGet (fs : List (String × Json)) (k : String) (v : Json)
    (h : objGet fs k = some v) : objReplaceFirst fs k v = fs := by
  induction fs with
  | nil => simp [objReplaceFirst]
  | cons f fs ih =>
      obtain ⟨k1, v1⟩ := f
      by_cases hk : k1 = k
      · have hv : v1 = v := by simpa [objGet, hk] using h
        subst hk
        subst hv
        simp [objReplaceFirst]
      · simp [objGet, hk] at h
        simp [objReplaceFirst, hk, ih h]

theorem objReplaceFirst_map_fst (fs : List (String × Json)) (k : String) (v : Json) :
    (objReplaceFirst fs k v).map Prod.fst = fs.map Prod.fst := by
  induction fs with
  | nil => simp [objReplaceFirst]
  | cons f fs ih =>
      by_cases hk : f.1 = k
      · simp [objReplaceFirst, hk]
      · simp [objReplaceFirst, hk, ih]

theorem lookupStr_of_mem_nodup (m : List (String × String)) (k : String) (v : String)
    (hmem : (k, v) ∈ m) (hnd : (m.map Prod.fst).Nodup) : lookupStr m k = some v := by
  induction m with
  | nil => simp at hmem
  | cons p ps ih =>
      simp only [List.map_cons, List.nodup_cons] at hnd
      rcases List.mem_cons.mp hmem with h | h
      · subst h
        simp [lookupStr]
      · have hne : p.1 ≠ k := by
          intro he
          exact hnd.1 (he ▸ (List.mem_map.mpr ⟨(k, v), h, rfl⟩))
        simp [lookupStr, hne, ih h hnd.2]

/-- Whitespace recognized by the JSON parser model. -/
def isWsChar (c : Char) : Bool := c == ' ' || c == '\n' || c == '\t' || c == '\r'

def skipWs : List Char → List Char
  | [] => []
  | c :: cs => if isWsChar c then skipWs cs else c :: cs

/-- Test whether the character list s begins with the pattern p. -/
def charsStarts : List Char → List Char → Bool
  | _, [] => true
  | [], _ :: _ => false
  | c :: cs, p :: ps => c == p && charsStarts cs ps

/-- Substring containment test, modelling JavaScript includes on strings. -/
def charsIncl (needle : List Char) : List Char → Bool
  | [] => charsStarts [] needle
  | c :: rest => charsStarts (c :: rest) needle || charsIncl needle rest

def strContains (s sub : String) : Bool := charsIncl sub.data s.data

def lowerStr (s : String) : String := String.mk (s.data.map Char.toLower)

/-- Characters the printer emits verbatim inside string literals. -/
def tameCharB (c : Char) : Bool := !(c == '"') && !(c == '\\') && decide (32 ≤ c.toNat)

def tameStrB (s : String) : Bool := s.data.all tameCharB

mutual

/-- Documents whose strings need no escaping and whose objects have pairwise
distinct keys: on these the JSON model is an exact image of the JavaScript
runtime and printing then reparsing is the identity. -/
def tameB : Json → Bool
  | .null => true
  | .bool _ => true
  | .num _ => true
  | .str s => tameStrB s
  | .arr xs => tameA xs
  | .obj fs => decide ((fs.map Prod.fst).Nodup) && tameO fs

def tameA : List Json → Bool
  | [] => true
  | x :: xs => tameB x && tameA xs

def tameO : List (String × Json) → Bool
  | [] => true
  | f :: fs => tameStrB f.1 && tameB f.2 && tameO fs

end

def digitChar : Nat → Char
  | 0 => '0'
  | 1 => '1'
  | 2 => '2'
  | 3 => '3'
  | 4 => '4'
  | 5 => '5'
  | 6 => '6'
  | 7 => '7'
  | 8 => '8'
  | _ => '9'

def isDigitChar (c : Char) : Bool := 48 ≤ c.toNat && c.toNat ≤ 57

def natCharsAux : Nat → Nat → List Char
  | 0, n => [digitChar n]
  | fuel + 1, n =>
      if n < 10 then [digitChar n]
      else natCharsAux fuel (n / 10) ++ [digitChar (n % 10)]

def natChars (n : Nat) : List Char := natCharsAux n n

theorem natCharsAux_irrel : ∀ (f1 f2 n : Nat), n ≤ f1 → n ≤ f2 →
    natCharsAux f1 n = natCharsAux f2 n := by
  intro f1
  induction f1 with
  | zero =>
      intro f2 n h1 _
      have hn : n = 0 := by omega
      subst hn
      cases f2 with
      | zero => rfl
      | succ g => simp [natCharsAux]
  | succ f ih =>
      intro f2 n h1 h2
      cases f2 with
      | zero =>
          have hn : n = 0 := by omega
          subst hn
          simp [natCharsAux]
      | succ g =>
          simp only [natCharsAux]
          by_cases h : n < 10
          · rw [if_pos h, if_pos h]
          · rw [if_neg h, if_neg h]
            have hlt : n / 10 < n := Nat.div_lt_self (by omega) (by omega)
            rw [ih g (n / 10) (by omega) (by omega)]

theorem natChars_unfold (n : Nat) :
    natChars n = if n < 10 then [digitChar n]
      else natChars (n / 10) ++ [digitChar (n % 10)] := by
  by_cases h : n < 10
  · rw [if_pos h]
    unfold natChars
    cases n with
    | zero => rfl
    | succ m => simp [natCharsAux, h]
  · rw [if_neg h]
    unfold natChars
    cases n with
    | zero => exact absurd (by omega) h
    | succ m =>
        simp only [natCharsAux, if_neg h]
        have hlt : (m + 1) / 10 < m + 1 := Nat.div_lt_self (by omega) (by omega)
        rw [natCharsAux_irrel m ((m + 1) / 10) ((m + 1) / 10) (by omega) (by omega)]

def intChars : Int → List Char
  | .ofNat n => natChars n
  | .negSucc m => '-' :: natChars (m + 1)

/-- Decimal rendering of a natural number, as JavaScript String(n). -/
def natStr (n : Nat) : String := String.mk (natChars n)

def indentChars (d : Nat) : List Char := List.replicate (2 * d) ' '

def escChar (c : Char) : List Char :=
  if c = '"' then ['\\', '"']
  else if c = '\\' then ['\\', '\\']
  else if c = '\n' then ['\\', 'n']
  else if c = '\t' then ['\\', 't']
  else if c = '\r' then ['\\', 'r']
  else [c]

def escChars (cs : List Char) : List Char := cs.flatMap escChar

/-- A JSON string literal with surrounding quotes. -/
def strLit (s : String) : List Char := '"' :: escChars s.data ++ ['"']

mutual

/-- Pretty printing model of JSON.stringify(v, null, 2) at indent depth d. -/
def stringifyChars : Json → Nat → List Char
  | .null, _ => ['n', 'u', 'l', 'l']
  | .bool true, _ => ['t', 'r', 'u', 'e']
  | .bool false, _ => ['f', 'a', 'l', 's', 'e']
  | .num n, _ => intChars n
  | .str s, _ => strLit s
  | .arr [], _ => ['[', ']']
  | .arr (x :: xs), d =>
      '[' :: '\n' :: stringifyItemsA (x :: xs) (d + 1) ++ '\n' :: indentChars d ++ [']']
  | .obj [], _ => ['\x7b', '\x7d']
  | .obj (f :: fs), d =>
      '\x7b' :: '\n' :: stringifyItemsO (f :: fs) (d + 1) ++ '\n' :: indentChars d ++ ['\x7d']

def stringifyItemsA : List Json → Nat → List Char
  | [], _ => []
  | [x], d => indentChars d ++ stringifyChars x d
  | x :: y :: xs, d =>
      indentChars d ++ stringifyChars x d ++ ',' :: '\n' :: stringifyItemsA (y :: xs) d

def stringifyItemsO : List (String × Json) → Nat → List Char
  | [], _ => []
  | [f], d => indentChars d ++ strLit f.1 ++ ':' :: ' ' :: stringifyChars f.2 d
  | f :: g :: fs, d =>
      indentChars d ++ strLit f.1 ++ ':' :: ' ' :: stringifyChars f.2 d ++
        ',' :: '\n' :: stringifyItemsO (g :: fs) d

end

/-- The two space pretty form JSON.stringify(v, null, 2) used by the source. -/
def stringify2 (j : Json) : String := String.mk (stringifyChars j 0)

def escDecode (c : Char) : Option Char :=
  if c = '"' then some '"'
  else if c = '\\' then some '\\'
  else if c = '/' then some '/'
  else if c = 'n' then some '\n'
  else if c = 't' then some '\t'
  else if c = 'r' then some '\r'
  else if c = 'b' then some (Char.ofNat 8)
  else if c = 'f' then some (Char.ofNat 12)
  else none

/-- Scan of a JSON string body up to the closing quote. -/
def parseStringAux : List Char → List Char → Option (String × List Char)
  | [], _ => none
  | c :: rest, acc =>
    if c = '"' then some (String.mk acc.reverse, rest)
    else if c = '\\' then
      match rest with
      | [] => none
      | e :: rest2 =>
        match escDecode e with
        | some d => parseStringAux rest2 (d :: acc)
        | none => none
    else parseStringAux rest (c :: acc)

def digitToNat (c : Char) : Nat := c.toNat - 48

def parseDigitsAux : List Char → Nat → Nat × List Char
  | [], acc => (acc, [])
  | c :: rest, acc =>
    if isDigitChar c then parseDigitsAux rest (10 * acc + digitToNat c) else (acc, c :: rest)

/-- Parser modes: a single value, the items of an array after the opening
bracket, or the fields of an object after the opening brace. -/
inductive PMode where
  | val : PMode
  | arrItems : PMode
  | objItems : PMode

def litNull : List Char := ['n', 'u', 'l', 'l']

def litTrue : List Char := ['t', 'r', 'u', 'e']

def litFalse : List Char := ['f', 'a', 'l', 's', 'e']

/-- Fuel based recursive descent parser modelling JSON.parse (restricted to
integer numerals and the escape sequences the printer can emit). -/
def parseCore : Nat → PMode → List Char → Option (Json × List Char)
  | 0, _, _ => none
  | fuel + 1, .val, s =>
    match skipWs s with
    | [] => none
    | c :: r =>
      if c = '"' then (parseStringAux r []).map (fun p => (Json.str p.1, p.2))
      else if c = '\x7b' then parseCore fuel .objItems r
      else if c = '[' then parseCore fuel .arrItems r
      else if c = '-' then
        match r with
        | [] => none
        | d :: _ =>
          if isDigitChar d then
            let p := parseDigitsAux r 0
            some (Json.num (-(p.1 : Int)), p.2)
          else none
      else if charsStarts (c :: r) litNull then some (Json.null, (c :: r).drop 4)
      else if charsStarts (c :: r) litTrue then some (Json.bool true, (c :: r).drop 4)
      else if charsStarts (c :: r) litFalse then some (Json.bool false, (c :: r).drop 5)
      else if isDigitChar c then
        let p := parseDigitsAux (c :: r) 0
        some (Json.num (p.1 : Int), p.2)
      else none
  | fuel + 1, .arrItems, s =>
    match skipWs s with
    | [] => none
    | c :: r =>
      if c = ']' then some (Json.arr [], r)
      else
        match parseCore fuel .val (c :: r) with
        | none => none
        | some (v, r1) =>
          match skipWs r1 with
          | [] => none
          | c2 :: r2 =>
            if c2 = ',' then
              match parseCore fuel .arrItems r2 with
              | some (Json.arr vs, r3) => some (Json.arr (v :: vs), r3)
              | _ => none
            else if c2 = ']' then some (Json.arr [v], r2)
            else none
  | fuel + 1, .objItems, s =>
    match skipWs s with
    | [] => none
    | c :: r =>
      if c = '\x7d' then some (Json.obj [], r)
      else if c = '"' then
        match parseStringAux r [] with
        | none => none
        | some (k, r1) =>
          match skipWs r1 with
          | [] => none
          | c2 :: r2 =>
            if c2 = ':' then
              match parseCore fuel .val r2 with
              | none => none
              | some (v, r3) =>
                match skipWs r3 with
                | [] => none
                | c3 :: r4 =>
                  if c3 = ',' then
                    match parseCore fuel .objItems r4 with
                    | some (Json.obj fs, r5) => some (Json.obj ((k, v) :: fs), r5)
                    | _ => none
                  else if c3 = '\x7d' then some (Json.obj [(k, v)], r4)
                  else none
            else none
      else none

/-- Top level JSON.parse model: whole input must be one value, modulo
surrounding whitespace; none models a thrown SyntaxError. -/
def parseJson (s : String) : Option Json :=
  match parseCore (2 * s.data.length + 2) .val s.data with
  | some (j, rest) => if skipWs rest = [] then some j else none
  | none => none

theorem skipWs_not_ws {c : Char} (h : isWsChar c = false) (l : List Char) :
    skipWs (c :: l) = c :: l := by simp [skipWs, h]

theorem skipWs_ws {c : Char} (h : isWsChar c = true) (l : List Char) :
    skipWs (c :: l) = skipWs l := by simp [skipWs, h]

theorem skipWs_replicate_space (n : Nat) (l : List Char) :
    skipWs (List.replicate n ' ' ++ l) = skipWs l := by
  induction n with
  | zero => simp
  | succ n ih => simpa [List.replicate_succ, skipWs] using ih

theorem skipWs_indent (d : Nat) (l : List Char) : skipWs (indentChars d ++ l) = skipWs l :=
  skipWs_replicate_space _ _

theorem skipWs_idem (l : List Char) : skipWs (skipWs l) = skipWs l := by
  induction l with
  | nil => simp [skipWs]
  | cons c cs ih =>
      by_cases h : isWsChar c = true
      · simp [skipWs, h, ih]
      · simp [skipWs, h]

theorem charsStarts_append_self (p r : List Char) : charsStarts (p ++ r) p = true := by
  induction p with
  | nil => simp [charsStarts]
  | cons c cs ih => simp [charsStarts, ih]

theorem tameCharB_split {c : Char} (h : tameCharB c = true) :
    (¬c = '"' ∧ ¬c = '\\') ∧ 32 ≤ c.toNat := by
  simpa [tameCharB, Bool.and_eq_true, decide_eq_true_eq] using h

theorem escChar_tame {c : Char} (h : tameCharB c = true) : escChar c = [c] := by
  have h' := tameCharB_split h
  have h3 : c ≠ '\n' := fun he => absurd (he ▸ h'.2) (by decide)
  have h4 : c ≠ '\t' := fun he => absurd (he ▸ h'.2) (by decide)
  have h5 : c ≠ '\r' := fun he => absurd (he ▸ h'.2) (by decide)
  simp [escChar, h'.1.1, h'.1.2, h3, h4, h5]

theorem escChars_tame {cs : List Char} (h : ∀ c ∈ cs, tameCharB c = true) : escChars cs = cs := by
  induction cs with
  | nil => simp [escChars]
  | cons c cs ih =>
      have hc := h c (List.mem_cons_self c cs)
      have hcs := fun x hx => h x (List.mem_cons_of_mem c hx)
      have hrest := ih hcs
      simp only [escChars] at hrest
      simp [escChars, List.flatMap_cons, escChar_tame hc, hrest]

theorem parseStringAux_tame (cs : List Char) (acc rest : List Char)
    (h : ∀ c ∈ cs, tameCharB c = true) :
    parseStringAux (cs ++ '"' :: rest) acc = some (String.mk (acc.reverse ++ cs), rest) := by
  induction cs generalizing acc with
  | nil =>
      rw [List.nil_append, parseStringAux.eq_def]
      simp
  | cons c cs ih =>
      have hc : tameCharB c = true := h c (List.mem_cons_self c cs)
      have h' := tameCharB_split hc
      have hrec := ih (c :: acc) (fun x hx => h x (List.mem_cons_of_mem c hx))
      rw [List.cons_append, parseStringAux.eq_def]
      simp only [h'.1.1, h'.1.2, if_false, ite_false]
      simpa using hrec

theorem string_mk_data (s : String) : String.mk s.data = s := rfl

theorem natChars_ne_nil (n : Nat) : natChars n ≠ [] := by
  rw [natChars_unfold]
  split <;> simp

theorem isDigitChar_digitChar {k : Nat} (h : k < 10) : isDigitChar (digitChar k) = true := by
  interval_cases k <;> decide

theorem digitToNat_digitChar {k : Nat} (h : k < 10) : digitToNat (digitChar k) = k := by
  interval_cases k <;> decide

theorem natChars_all_digits : ∀ n, ∀ c ∈ natChars n, isDigitChar c = true := by
  intro n
  induction n using Nat.strong_induction_on with
  | _ n ih =>
      intro c hc
      rw [natChars_unfold] at hc
      by_cases h : n < 10
      · simp [h] at hc
        exact hc ▸ isDigitChar_digitChar h
      · simp [h] at hc
        rcases hc with hc | hc
        · exact ih (n / 10) (Nat.div_lt_self (by omega) (by omega)) c hc
        · exact hc ▸ isDigitChar_digitChar (Nat.mod_lt _ (by omega))

def digitsVal (acc : Nat) (ds : List Char) : Nat :=
  ds.foldl (fun a c => 10 * a + digitToNat c) acc

theorem parseDigitsAux_append (ds : List Char) (rest : List Char) (acc : Nat)
    (hds : ∀ c ∈ ds, isDigitChar c = true)
    (hrest : ∀ c l, rest = c :: l → isDigitChar c = false) :
    parseDigitsAux (ds ++ rest) acc = (digitsVal acc ds, rest) := by
  induction ds generalizing acc with
  | nil =>
      cases rest with
      | nil => simp [parseDigitsAux, digitsVal]
      | cons c l => simp [parseDigitsAux, digitsVal, hrest c l rfl]
  | cons d ds ih =>
      have hd := hds d (List.mem_cons_self d ds)
      simp [parseDigitsAux, hd, digitsVal]
      simpa [digitsVal] using ih _ (fun x hx => hds x (List.mem_cons_of_mem d hx))

theorem digitsVal_natChars : ∀ n acc, digitsVal acc (natChars n) = acc * 10 ^ (natChars n).length + n := by
  intro n
  induction n using Nat.strong_induction_on with
  | _ n ih =>
      intro acc
      rw [natChars_unfold]
      by_cases h : n < 10
      · simp [h, digitsVal, digitToNat_digitChar h]
        ring
      · have hd : n / 10 < n := Nat.div_lt_self (by omega) (by omega)
        simp only [h, if_false, digitsVal, List.foldl_append, List.foldl_cons, List.foldl_nil,
          List.length_append, List.length_cons, List.length_nil]
        have h1 := ih (n / 10) hd acc
        simp only [digitsVal] at h1
        rw [h1, digitToNat_digitChar (Nat.mod_lt _ (by omega))]
        have := Nat.div_add_mod n 10
        rw [pow_succ]
        ring_nf
        omega

theorem digitsVal_natChars_zero (n : Nat) : digitsVal 0 (natChars n) = n := by
  simpa using digitsVal_natChars n 0

mutual

/-- Fuel sufficient for the parser to reparse the printed form of a value. -/
def fuelFor : Json → Nat
  | .null => 1
  | .bool _ => 1
  | .num _ => 1
  | .str _ => 1
  | .arr xs => 1 + fuelForA xs
  | .obj fs => 1 + fuelForO fs

def fuelForA : List Json → Nat
  | [] => 1
  | x :: xs => 1 + max (fuelFor x) (fuelForA xs)

def fuelForO : List (String × Json) → Nat
  | [] => 1
  | f :: fs => 1 + max (fuelFor f.2) (fuelForO fs)

end

theorem fuelFor_pos (j : Json) : 1 ≤ fuelFor j := by
  cases j <;> simp [fuelFor]

theorem fuelForA_pos (xs : List Json) : 1 ≤ fuelForA xs := by
  cases xs <;> simp [fuelForA]

theorem fuelForO_pos (fs : List (String × Json)) : 1 ≤ fuelForO fs := by
  cases fs <;> simp [fuelForO]

mutual

theorem fuelFor_le : ∀ (j : Json) (d : Nat), fuelFor j ≤ 2 * (stringifyChars j d).length
  | .null, d => by simp [fuelFor, stringifyChars]
  | .bool b, d => by cases b <;> simp [fuelFor, stringifyChars]
  | .num n, d => by
      have h : 1 ≤ (stringifyChars (.num n) d).length := by
        cases n with
        | ofNat m =>
            have := natChars_ne_nil m
            simp [stringifyChars, intChars]
            exact List.length_pos.mpr this
        | negSucc m => simp [stringifyChars, intChars]
      simp only [fuelFor]
      omega
  | .str s, d => by
      simp [fuelFor, stringifyChars, strLit]
      omega
  | .arr [], d => by simp [fuelFor, fuelForA, stringifyChars]
  | .arr (x :: xs), d => by
      have h := fuelForA_le (x :: xs) (d + 1)
      simp only [fuelFor, stringifyChars, List.length_cons, List.length_append,
        List.length_cons, List.length_nil] at *
      omega
  | .obj [], d => by simp [fuelFor, fuelForO, stringifyChars]
  | .obj (f :: fs), d => by
      have h := fuelForO_le (f :: fs) (d + 1)
      simp only [fuelFor, stringifyChars, List.length_cons, List.length_append,
        List.length_cons, List.length_nil] at *
      omega

theorem fuelForA_le : ∀ (xs : List Json) (d : Nat), fuelForA xs ≤ 2 * (stringifyItemsA xs d).length + 1
  | [], d => by simp [fuelForA, stringifyItemsA]
  | [x], d => by
      have h := fuelFor_le x d
      have h1 := fuelFor_pos x
      simp only [fuelForA, stringifyItemsA, List.length_append] at *
      omega
  | x :: y :: xs, d => by
      have h1 := fuelFor_le x d
      have h2 := fuelForA_le (y :: xs) d
      simp only [fuelForA, stringifyItemsA, List.length_append, List.length_cons] at *
      omega

theorem fuelForO_le : ∀ (fs : List (String × Json)) (d : Nat),
    fuelForO fs ≤ 2 * (stringifyItemsO fs d).length + 1
  | [], d => by simp [fuelForO, stringifyItemsO]
  | [f], d => by
      have h := fuelFor_le f.2 d
      have h1 := fuelFor_pos f.2
      simp only [fuelForO, stringifyItemsO, List.length_append, List.length_cons] at *
      omega
  | f :: g :: fs, d => by
      have h1 := fuelFor_le f.2 d
      have h2 := fuelForO_le (g :: fs) d
      simp only [fuelForO, stringifyItemsO, List.length_append, List.length_cons] at *
      omega

end

theorem digit_char_facts {c : Char} (h : isDigitChar c = true) :
    isWsChar c = false ∧ ¬c = '"' ∧ ¬c = '\x7b' ∧ ¬c = '[' ∧ ¬c = '-' ∧ ¬c = ']' ∧
      ¬c = '\x7d' ∧ ¬c = ',' ∧ (c == 'n') = false ∧ (c == 't') = false ∧ (c == 'f') = false := by
  have hb : 48 ≤ c.toNat ∧ c.toNat ≤ 57 := by
    simpa [isDigitChar, Bool.and_eq_true, decide_eq_true_eq] using h
  have hne : ∀ x : Char, (x.toNat < 48 ∨ 57 < x.toNat) → ¬c = x := by
    intro x hx he
    subst he
    omega
  refine ⟨?_, hne _ (by decide), hne _ (by decide), hne _ (by decide), hne _ (by decide),
    hne _ (by decide), hne _ (by decide), hne _ (by decide), ?_, ?_, ?_⟩
  · simp [isWsChar, hne ' ' (by decide), hne '\n' (by decide), hne '\t' (by decide),
      hne '\r' (by decide)]
  · simp [hne 'n' (by decide)]
  · simp [hne 't' (by decide)]
  · simp [hne 'f' (by decide)]

theorem natChars_head (n : Nat) :
    ∃ c t, natChars n = c :: t ∧ isDigitChar c = true := by
  cases hn : natChars n with
  | nil => exact absurd hn (natChars_ne_nil n)
  | cons c t =>
      refine ⟨c, t, rfl, ?_⟩
      exact natChars_all_digits n c (hn ▸ List.mem_cons_self c t)

theorem stringify_head (j : Json) (d : Nat) :
    ∃ c t, stringifyChars j d = c :: t ∧ isWsChar c = false ∧ ¬c = ']' := by
  cases j with
  | null => exact ⟨'n', _, rfl, by decide, by decide⟩
  | bool b => cases b
              · exact ⟨'f', _, rfl, by decide, by decide⟩
              · exact ⟨'t', _, rfl, by decide, by decide⟩
  | num n =>
      cases n with
      | ofNat m =>
          obtain ⟨c, t, hct, hd⟩ := natChars_head m
          have hf := digit_char_facts hd
          exact ⟨c, t, by simp [stringifyChars, intChars, hct], hf.1, hf.2.2.2.2.2.1⟩
      | negSucc m => exact ⟨'-', _, rfl, by decide, by decide⟩
  | str s => exact ⟨'"', _, rfl, by decide, by decide⟩
  | arr xs => cases xs
              · exact ⟨'[', _, rfl, by decide, by decide⟩
              · exact ⟨'[', _, rfl, by decide, by decide⟩
  | obj fs => cases fs
              · exact ⟨'\x7b', _, rfl, by decide, by decide⟩
              · exact ⟨'\x7b', _, rfl, by decide, by decide⟩

/-- Character category that may legally follow a printed value. -/
def restOkB : List Char → Bool
  | [] => true
  | c :: _ => c == ',' || c == '\n'

theorem restOk_not_digit {rest : List Char} (h : restOkB rest = true) :
    ∀ c l, rest = c :: l → isDigitChar c = false := by
  intro c l he
  subst he
  simp only [restOkB, Bool.or_eq_true, beq_iff_eq] at h
  rcases h with h | h <;> subst h <;> decide

theorem parseCore_ws_cons {c : Char} (h : isWsChar c = true) (fuel : Nat) (mode : PMode)
    (s : List Char) : parseCore (fuel + 1) mode (c :: s) = parseCore (fuel + 1) mode s := by
  cases mode <;> simp only [parseCore] <;> rw [skipWs_ws h]

theorem parseCore_indent (fuel d : Nat) (mode : PMode) (s : List Char) :
    parseCore (fuel + 1) mode (indentChars d ++ s) = parseCore (fuel + 1) mode s := by
  cases mode <;> simp only [parseCore] <;> rw [skipWs_indent]

theorem restOkB_of_comma (l : List Char) : restOkB (',' :: l) = true := by simp [restOkB]

theorem restOkB_of_newline (l : List Char) : restOkB ('\n' :: l) = true := by simp [restOkB]

theorem tameA_cons {x : Json} {xs : List Json} (h : tameA (x :: xs) = true) :
    tameB x = true ∧ tameA xs = true := by
  simpa [tameA, Bool.and_eq_true] using h

theorem tameO_cons {f : String × Json} {fs : List (String × Json)} (h : tameO (f :: fs) = true) :
    tameStrB f.1 = true ∧ tameB f.2 = true ∧ tameO fs = true := by
  simpa [tameO, Bool.and_eq_true, and_assoc] using h

theorem tameStrB_mem {s : String} (h : tameStrB s = true) : ∀ c ∈ s.data, tameCharB c = true := by
  simpa [tameStrB, List.all_eq_true] using h

theorem strLit_tame {k : String} (h : tameStrB k = true) : strLit k = '"' :: k.data ++ ['"'] := by
  simp [strLit, escChars_tame (tameStrB_mem h)]


theorem skipWs_comma (l : List Char) : skipWs (',' :: l) = ',' :: l :=
  skipWs_not_ws (by decide) l

theorem skipWs_colon (l : List Char) : skipWs (':' :: l) = ':' :: l :=
  skipWs_not_ws (by decide) l

mutual

theorem parse_print_val : ∀ (j : Json) (d fuel : Nat) (rest : List Char),
    tameB j = true → fuelFor j ≤ fuel → restOkB rest = true →
    parseCore fuel .val (stringifyChars j d ++ rest) = some (j, rest)
  | .null, d, fuel, rest => fun _ hf _ => by
      have h1 : (1 : Nat) ≤ fuel := le_trans (fuelFor_pos _) hf
      obtain ⟨f, rfl⟩ : ∃ f, fuel = f + 1 := ⟨fuel - 1, by omega⟩
      have hshape : stringifyChars Json.null d ++ rest = 'n' :: 'u' :: 'l' :: 'l' :: rest := by
        simp [stringifyChars]
      rw [hshape]
      simp [parseCore, skipWs, isWsChar, charsStarts, litNull, litTrue, litFalse]
  | .bool true, d, fuel, rest => fun _ hf _ => by
      have h1 : (1 : Nat) ≤ fuel := le_trans (fuelFor_pos _) hf
      obtain ⟨f, rfl⟩ : ∃ f, fuel = f + 1 := ⟨fuel - 1, by omega⟩
      have hshape : stringifyChars (Json.bool true) d ++ rest =
          't' :: 'r' :: 'u' :: 'e' :: rest := by
        simp [stringifyChars]
      rw [hshape]
      simp [parseCore, skipWs, isWsChar, charsStarts, litNull, litTrue, litFalse]
  | .bool false, d, fuel, rest => fun _ hf _ => by
      have h1 : (1 : Nat) ≤ fuel := le_trans (fuelFor_pos _) hf
      obtain ⟨f, rfl⟩ : ∃ f, fuel = f + 1 := ⟨fuel - 1, by omega⟩
      have hshape : stringifyChars (Json.bool false) d ++ rest =
          'f' :: 'a' :: 'l' :: 's' :: 'e' :: rest := by
        simp [stringifyChars]
      rw [hshape]
      simp [parseCore, skipWs, isWsChar, charsStarts, litNull, litTrue, litFalse]
  | .num (Int.ofNat n), d, fuel, rest => fun _ hf hr => by
      have h1 : (1 : Nat) ≤ fuel := le_trans (fuelFor_pos _) hf
      obtain ⟨f, rfl⟩ : ∃ f, fuel = f + 1 := ⟨fuel - 1, by omega⟩
      obtain ⟨c, t, hct, hd⟩ := natChars_head n
      obtain ⟨hws, hq, hcb, hsq, hmi, hrb, hrc, hcm, hn, htl, hfl⟩ := digit_char_facts hd
      have hshape : stringifyChars (.num (Int.ofNat n)) d ++ rest = c :: (t ++ rest) := by
        simp [stringifyChars, intChars, hct]
      rw [hshape]
      simp only [parseCore]
      simp only [skipWs_not_ws hws]
      rw [if_neg hq, if_neg hcb, if_neg hsq, if_neg hmi]
      have g1 : charsStarts (c :: (t ++ rest)) litNull = false := by
        simp [charsStarts, litNull, hn]
      have g2 : charsStarts (c :: (t ++ rest)) litTrue = false := by
        simp [charsStarts, litTrue, htl]
      have g3 : charsStarts (c :: (t ++ rest)) litFalse = false := by
        simp [charsStarts, litFalse, hfl]
      have hdig : parseDigitsAux (c :: (t ++ rest)) 0 = (n, rest) := by
        have he : c :: (t ++ rest) = natChars n ++ rest := by simp [hct]
        rw [he, parseDigitsAux_append _ _ _ (natChars_all_digits n) (restOk_not_digit hr),
          digitsVal_natChars_zero]
      simp [g1, g2, g3, hd, hdig]
  | .num (Int.negSucc m), d, fuel, rest => fun _ hf hr => by
      have h1 : (1 : Nat) ≤ fuel := le_trans (fuelFor_pos _) hf
      obtain ⟨f, rfl⟩ : ∃ f, fuel = f + 1 := ⟨fuel - 1, by omega⟩
      obtain ⟨c, t, hct, hd⟩ := natChars_head (m + 1)
      have hshape : stringifyChars (.num (Int.negSucc m)) d ++ rest =
          '-' :: (natChars (m + 1) ++ rest) := by
        simp [stringifyChars, intChars]
      rw [hshape]
      have hdig : parseDigitsAux (natChars (m + 1) ++ rest) 0 = (m + 1, rest) := by
        rw [parseDigitsAux_append _ _ _ (natChars_all_digits (m + 1)) (restOk_not_digit hr),
          digitsVal_natChars_zero]
      have hdig2 : parseDigitsAux (c :: (t ++ rest)) 0 = (m + 1, rest) := by
        rw [← List.cons_append, ← hct]
        exact hdig
      simp only [parseCore]
      simp only [skipWs_not_ws (show isWsChar '-' = false by decide)]
      rw [if_neg (by decide), if_neg (by decide), if_neg (by decide), if_true]
      simp only [hct, List.cons_append]
      simp [hd, hdig2, Int.negSucc_eq]
  | .str s, d, fuel, rest => fun ht hf _ => by
      have h1 : (1 : Nat) ≤ fuel := le_trans (fuelFor_pos _) hf
      obtain ⟨f, rfl⟩ : ∃ f, fuel = f + 1 := ⟨fuel - 1, by omega⟩
      have hts : tameStrB s = true := by simpa [tameB] using ht
      have hshape : stringifyChars (.str s) d ++ rest = '"' :: (s.data ++ ('"' :: rest)) := by
        simp [stringifyChars, strLit_tame hts]
      rw [hshape]
      simp only [parseCore]
      simp only [skipWs_not_ws (show isWsChar '"' = false by decide)]
      rw [if_true]
      rw [parseStringAux_tame s.data [] rest (tameStrB_mem hts)]
      simp [string_mk_data]
  | .arr [], d, fuel, rest => fun _ hf _ => by
      have h1 : (2 : Nat) ≤ fuel := le_trans (by simp [fuelFor, fuelForA]) hf
      obtain ⟨f, rfl⟩ : ∃ f, fuel = f + 1 := ⟨fuel - 1, by omega⟩
      obtain ⟨f2, rfl⟩ : ∃ f2, f = f2 + 1 := ⟨f - 1, by omega⟩
      have hshape : stringifyChars (.arr []) d ++ rest = '[' :: ']' :: rest := by
        simp [stringifyChars]
      rw [hshape]
      simp [parseCore, skipWs, isWsChar, charsStarts, litNull, litTrue, litFalse]
  | .arr (x :: xs), d, fuel, rest => fun ht hf hr => by
      have hta : tameA (x :: xs) = true := by simpa [tameB] using ht
      simp only [fuelFor] at hf
      have hpos := fuelForA_pos (x :: xs)
      obtain ⟨f, rfl⟩ : ∃ f, fuel = f + 1 := ⟨fuel - 1, by omega⟩
      have hfA : fuelForA (x :: xs) ≤ f := by omega
      have hshape : stringifyChars (.arr (x :: xs)) d ++ rest =
          '[' :: '\n' :: (stringifyItemsA (x :: xs) (d + 1) ++
            '\n' :: indentChars d ++ ']' :: rest) := by
        simp [stringifyChars]
      rw [hshape]
      simp only [parseCore]
      simp only [skipWs_not_ws (show isWsChar '[' = false by decide)]
      rw [if_neg (by decide), if_neg (by decide), if_true]
      obtain ⟨f2, rfl⟩ : ∃ f2, f = f2 + 1 := ⟨f - 1, by omega⟩
      rw [parseCore_ws_cons (by decide)]
      exact parse_print_arr (x :: xs) (d + 1) d (f2 + 1) rest (by simp) hta hfA hr
  | .obj [], d, fuel, rest => fun _ hf _ => by
      have h1 : (2 : Nat) ≤ fuel := le_trans (by simp [fuelFor, fuelForO]) hf
      obtain ⟨f, rfl⟩ : ∃ f, fuel = f + 1 := ⟨fuel - 1, by omega⟩
      obtain ⟨f2, rfl⟩ : ∃ f2, f = f2 + 1 := ⟨f - 1, by omega⟩
      have hshape : stringifyChars (.obj []) d ++ rest = '\x7b' :: '\x7d' :: rest := by
        simp [stringifyChars]
      rw [hshape]
      simp [parseCore, skipWs, isWsChar, charsStarts, litNull, litTrue, litFalse]
  | .obj (p :: fs), d, fuel, rest => fun ht hf hr => by
      have hto : tameO (p :: fs) = true := by
        have hx : (decide (((p :: fs).map Prod.fst).Nodup) && tameO (p :: fs)) = true := by
          simpa [tameB] using ht
        exact ((Bool.and_eq_true _ _).mp hx).2
      simp only [fuelFor] at hf
      have hpos := fuelForO_pos (p :: fs)
      obtain ⟨f, rfl⟩ : ∃ f, fuel = f + 1 := ⟨fuel - 1, by omega⟩
      have hfO : fuelForO (p :: fs) ≤ f := by omega
      have hshape : stringifyChars (.obj (p :: fs)) d ++ rest =
          '\x7b' :: '\n' :: (stringifyItemsO (p :: fs) (d + 1) ++
            '\n' :: indentChars d ++ '\x7d' :: rest) := by
        simp [stringifyChars]
      rw [hshape]
      simp only [parseCore]
      simp only [skipWs_not_ws (show isWsChar '\x7b' = false by decide)]
      rw [if_neg (by decide), if_true]
      obtain ⟨f2, rfl⟩ : ∃ f2, f = f2 + 1 := ⟨f - 1, by omega⟩
      rw [parseCore_ws_cons (by decide)]
      exact parse_print_obj (p :: fs) (d + 1) d (f2 + 1) rest (by simp) hto hfO hr

theorem parse_print_arr : ∀ (xs : List Json) (d dc fuel : Nat) (rest : List Char),
    xs ≠ [] → tameA xs = true → fuelForA xs ≤ fuel → restOkB rest = true →
    parseCore fuel .arrItems
        (stringifyItemsA xs d ++ '\n' :: indentChars dc ++ ']' :: rest) =
      some (.arr xs, rest)
  | [], _, _, _, _ => fun hne => absurd rfl hne
  | x :: xs, d, dc, fuel, rest => fun _ ht hf hr => by
      obtain ⟨htx, htxs⟩ := tameA_cons ht
      simp only [fuelForA] at hf
      have hpx := fuelFor_pos x
      obtain ⟨f, rfl⟩ : ∃ f, fuel = f + 1 := ⟨fuel - 1, by omega⟩
      have hm := max_le_iff.mp (show max (fuelFor x) (fuelForA xs) ≤ f by omega)
      obtain ⟨c, t, hct, hws, hbr⟩ := stringify_head x d
      cases xs with
      | nil =>
          have hshape : stringifyItemsA [x] d ++ '\n' :: indentChars dc ++ ']' :: rest =
              indentChars d ++ (stringifyChars x d ++
                ('\n' :: (indentChars dc ++ ']' :: rest))) := by
            simp [stringifyItemsA]
          rw [hshape, parseCore_indent]
          simp only [parseCore]
          have hsk : skipWs (stringifyChars x d ++ ('\n' :: (indentChars dc ++ ']' :: rest))) =
              c :: (t ++ ('\n' :: (indentChars dc ++ ']' :: rest))) := by
            rw [hct]
            exact skipWs_not_ws hws _
          simp only [hsk]
          rw [if_neg hbr]
          have hre : c :: (t ++ ('\n' :: (indentChars dc ++ ']' :: rest))) =
              stringifyChars x d ++ ('\n' :: (indentChars dc ++ ']' :: rest)) := by
            simp [hct]
          rw [hre]
          have hval := parse_print_val x d f ('\n' :: (indentChars dc ++ ']' :: rest)) htx hm.1
            (restOkB_of_newline _)
          simp only [hval]
          have hskip : skipWs ('\n' :: (indentChars dc ++ ']' :: rest)) = ']' :: rest := by
            rw [skipWs_ws (by decide), skipWs_indent, skipWs_not_ws (by decide)]
          simp only [hskip]
          rw [if_neg (by decide), if_true]
      | cons y ys =>
          have hshape : stringifyItemsA (x :: y :: ys) d ++ '\n' :: indentChars dc ++
                ']' :: rest =
              indentChars d ++ (stringifyChars x d ++
                (',' :: '\n' :: (stringifyItemsA (y :: ys) d ++
                  '\n' :: indentChars dc ++ ']' :: rest))) := by
            simp [stringifyItemsA]
          rw [hshape, parseCore_indent]
          simp only [parseCore]
          have hsk : skipWs (stringifyChars x d ++ (',' :: '\n' ::
              (stringifyItemsA (y :: ys) d ++ '\n' :: indentChars dc ++ ']' :: rest))) =
              c :: (t ++ (',' :: '\n' :: (stringifyItemsA (y :: ys) d ++
                '\n' :: indentChars dc ++ ']' :: rest))) := by
            rw [hct]
            exact skipWs_not_ws hws _
          simp only [hsk]
          rw [if_neg hbr]
          have hre : c :: (t ++ (',' :: '\n' :: (stringifyItemsA (y :: ys) d ++
              '\n' :: indentChars dc ++ ']' :: rest))) =
              stringifyChars x d ++ (',' :: '\n' :: (stringifyItemsA (y :: ys) d ++
                '\n' :: indentChars dc ++ ']' :: rest)) := by
            simp [hct]
          rw [hre]
          have hval := parse_print_val x d f (',' :: '\n' :: (stringifyItemsA (y :: ys) d ++
            '\n' :: indentChars dc ++ ']' :: rest)) htx hm.1 (restOkB_of_comma _)
          simp only [hval]
          simp only [skipWs_comma]
          rw [if_true]
          have hpos2 := fuelForA_pos (y :: ys)
          obtain ⟨f2, rfl⟩ : ∃ f2, f = f2 + 1 := ⟨f - 1, by omega⟩
          rw [parseCore_ws_cons (by decide)]
          have hrec := parse_print_arr (y :: ys) d dc (f2 + 1) rest (by simp) htxs hm.2 hr
          simp only [hrec]

theorem parse_print_obj : ∀ (fs : List (String × Json)) (d dc fuel : Nat) (rest : List Char),
    fs ≠ [] → tameO fs = true → fuelForO fs ≤ fuel → restOkB rest = true →
    parseCore fuel .objItems
        (stringifyItemsO fs d ++ '\n' :: indentChars dc ++ '\x7d' :: rest) =
      some (.obj fs, rest)
  | [], _, _, _, _ => fun hne => absurd rfl hne
  | p :: fs, d, dc, fuel, rest => fun _ ht hf hr => by
      obtain ⟨htk, htv, htfs⟩ := tameO_cons ht
      simp only [fuelForO] at hf
      have hpv := fuelFor_pos p.2
      obtain ⟨f, rfl⟩ : ∃ f, fuel = f + 1 := ⟨fuel - 1, by omega⟩
      have hm := max_le_iff.mp (show max (fuelFor p.2) (fuelForO fs) ≤ f by omega)
      cases fs with
      | nil =>
          have hshape : stringifyItemsO [p] d ++ '\n' :: indentChars dc ++ '\x7d' :: rest =
              indentChars d ++ ('"' :: (p.1.data ++ ('"' :: ':' :: ' ' ::
                (stringifyChars p.2 d ++
                  ('\n' :: (indentChars dc ++ '\x7d' :: rest)))))) := by
            simp [stringifyItemsO, strLit_tame htk]
          rw [hshape, parseCore_indent]
          simp only [parseCore]
          simp only [skipWs_not_ws (show isWsChar '"' = false by decide)]
          rw [if_neg (by decide), if_true]
          have hkey : parseStringAux (p.1.data ++ ('"' :: ':' :: ' ' ::
              (stringifyChars p.2 d ++ ('\n' :: (indentChars dc ++ '\x7d' :: rest))))) [] =
              some (p.1, ':' :: ' ' :: (stringifyChars p.2 d ++
                ('\n' :: (indentChars dc ++ '\x7d' :: rest)))) := by
            rw [parseStringAux_tame _ _ _ (tameStrB_mem htk)]
            simp [string_mk_data]
          simp only [hkey]
          simp only [skipWs_colon]
          rw [if_true]
          obtain ⟨f2, rfl⟩ : ∃ f2, f = f2 + 1 := ⟨f - 1, by omega⟩
          rw [parseCore_ws_cons (by decide)]
          have hval := parse_print_val p.2 d (f2 + 1)
            ('\n' :: (indentChars dc ++ '\x7d' :: rest)) htv hm.1 (restOkB_of_newline _)
          simp only [hval]
          have hskip : skipWs ('\n' :: (indentChars dc ++ '\x7d' :: rest)) = '\x7d' :: rest := by
            rw [skipWs_ws (by decide), skipWs_indent, skipWs_not_ws (by decide)]
          simp only [hskip]
          rw [if_neg (by decide), if_true]
      | cons q fs =>
          have hshape : stringifyItemsO (p :: q :: fs) d ++ '\n' :: indentChars dc ++
                '\x7d' :: rest =
              indentChars d ++ ('"' :: (p.1.data ++ ('"' :: ':' :: ' ' ::
                (stringifyChars p.2 d ++
                  (',' :: '\n' :: (stringifyItemsO (q :: fs) d ++
                    '\n' :: indentChars dc ++ '\x7d' :: rest)))))) := by
            simp [stringifyItemsO, strLit_tame htk]
          rw [hshape, parseCore_indent]
          simp only [parseCore]
          simp only [skipWs_not_ws (show isWsChar '"' = false by decide)]
          rw [if_neg (by decide), if_true]
          have hkey : parseStringAux (p.1.data ++ ('"' :: ':' :: ' ' ::
              (stringifyChars p.2 d ++ (',' :: '\n' :: (stringifyItemsO (q :: fs) d ++
                '\n' :: indentChars dc ++ '\x7d' :: rest))))) [] =
              some (p.1, ':' :: ' ' :: (stringifyChars p.2 d ++
                (',' :: '\n' :: (stringifyItemsO (q :: fs) d ++
                  '\n' :: indentChars dc ++ '\x7d' :: rest)))) := by
            rw [parseStringAux_tame _ _ _ (tameStrB_mem htk)]
            simp [string_mk_data]
          simp only [hkey]
          simp only [skipWs_colon]
          rw [if_true]
          obtain ⟨f2, rfl⟩ : ∃ f2, f = f2 + 1 := ⟨f - 1, by omega⟩
          rw [parseCore_ws_cons (by decide)]
          have hval := parse_print_val p.2 d (f2 + 1)
            (',' :: '\n' :: (stringifyItemsO (q :: fs) d ++
              '\n' :: indentChars dc ++ '\x7d' :: rest)) htv hm.1 (restOkB_of_comma _)
          simp only [hval]
          simp only [skipWs_comma]
          rw [if_true]
          have hpos2 := fuelForO_pos (q :: fs)
          rw [parseCore_ws_cons (by decide)]
          have hrec := parse_print_obj (q :: fs) d dc (f2 + 1) rest (by simp) htfs hm.2 hr
          simp only [hrec]

end

theorem parseJson_stringify2 (j : Json) (ht : tameB j = true) :
    parseJson (stringify2 j) = some j := by
  unfold parseJson stringify2
  have hfuel : fuelFor j ≤ 2 * (String.mk (stringifyChars j 0)).data.length + 2 := by
    have := fuelFor_le j 0
    have hd : (String.mk (stringifyChars j 0)).data = stringifyChars j 0 := rfl
    rw [hd]
    omega
  have h := parse_print_val j 0 (2 * (String.mk (stringifyChars j 0)).data.length + 2) [] ht
    hfuel rfl
  rw [List.append_nil] at h
  have hd : (String.mk (stringifyChars j 0)).data = stringifyChars j 0 := rfl
  rw [hd, h]
  simp [skipWs]

/-- Proxy base URL from src/ui/src/mcpoConfig.ts. -/
def MCPO_BASE_URL : String := "http://host.docker.internal:11600"

def MCPO_SENSITIVE_PLACEHOLDER : String := "*****"

def SENSITIVE_KEYWORDS : List String := ["key", "secret", "pass", "password"]

/-- The whitespace trim used throughout, modelled on characters. -/
def trimChars (cs : List Char) : List Char :=
((cs.dropWhile Char.isWhitespace).reverse.dropWhile Char.isWhitespace).reverse

def strTrim (s : String) : String := String.mk (trimChars s.data)

/-- Replacement of every CRLF pair by a bare newline, as text.replace. -/
def replaceCrlf : List Char → List Char
  | [] => []
  | '\r' :: '\n' :: rest => '\n' :: replaceCrlf rest
  | c :: rest => c :: replaceCrlf rest

/-- normalizeConfigText from mcpoConfig.ts: CRLF normalization then trim. -/
def normalizeConfigText (text : String) : String :=
  strTrim (String.mk (replaceCrlf text.data))

/-- parseMcpoConfig: tolerant JSON.parse with parsed ?? empty-object; a parse
error is caught and a null result replaced by the empty object. -/
def parseMcpoConfig (text : String) : Json :=
  match parseJson text with
  | none => .obj []
  | some j => if j = .null then .obj [] else j

structure McpoServerDefinition where
  id : String
  name : String
  description : String
  url : String
deriving DecidableEq

/-- Object.entries of the mcpServers value when the guard
(truthy and typeof object) passes: plain objects yield their fields, arrays
yield index-keyed entries, everything else yields nothing. -/
def mcpoServerEntries (parsed : Json) : List (String × Json) :=
  match parsed with
  | .obj fs =>
      match objGet fs "mcpServers" with
      | some (.obj ms) => ms
      | some (.arr xs) => xs.enum.map (fun p => (natStr p.1, p.2))
      | _ => []
  | _ => []

/-- The definition?.info ?? \x7b\x7d access: fields of the info object, empty
for every non-object. -/
def serverInfoFields (defn : Json) : List (String × Json) :=
  match defn with
  | .obj dfs =>
      match objGet dfs "info" with
      | some (.obj ifs) => ifs
      | _ => []
  | _ => []

/-- extractMcpoServers from mcpoConfig.ts. -/
def extractMcpoServers (configText : String) : List McpoServerDefinition :=
  (mcpoServerEntries (parseMcpoConfig configText)).filterMap (fun p =>
    if p.1 = "" then none
    else
      let ifs := serverInfoFields p.2
      let name :=
        match objGet ifs "name" with
        | some (.str s) => if strTrim s = "" then p.1 else strTrim s
        | _ => p.1
      let description :=
        match objGet ifs "description" with
        | some (.str s) => s
        | _ => ""
      some { id := p.1, name := name, description := description,
             url := MCPO_BASE_URL ++ "/" ++ p.1 })

/-- Case insensitive keyword test isSensitiveEnvKey. -/
def isSensitiveEnvKey (key : String) : Bool :=
  SENSITIVE_KEYWORDS.any (fun kw => strContains (lowerStr key) kw)

def buildEnvPath (serverId envKey : String) : String := serverId ++ "::" ++ envKey

/-- Masking of one env entry: a string value under a sensitive key is replaced
by the placeholder and its original value recorded under its path. -/
def maskEnvEntry (sid : String) (p : String × Json) : (String × Json) × Option (String × String) :=
  match p.2 with
  | .str v =>
      if isSensitiveEnvKey p.1 then
        ((p.1, .str MCPO_SENSITIVE_PLACEHOLDER), some (buildEnvPath sid p.1, v))
      else (p, none)
  | _ => (p, none)

/-- Masking of one server definition: only a plain-object env of a
plain-object definition is rewritten. -/
def maskServerDef (sid : String) (d : Json) : Json × List (String × String) :=
  match d with
  | .obj dfs =>
      match objGet dfs "env" with
      | some (.obj envFields) =>
          let rs := envFields.map (maskEnvEntry sid)
          (.obj (objReplaceFirst dfs "env" (.obj (rs.map Prod.fst))),
            rs.filterMap Prod.snd)
      | _ => (.obj dfs, [])
  | _ => (d, [])

def maskServers (servers : List (String × Json)) :
    List (String × Json) × List (String × String) :=
  ((servers.map (fun p => (p.1, (maskServerDef p.1 p.2).1))),
    (servers.map (fun p => (maskServerDef p.1 p.2).2)).flatten)

/-- maskSensitiveEnvValues from mcpoConfig.ts; the mask map is an association
list whose lookup agrees with the JavaScript object when paths are distinct. -/
def maskSensitiveEnvValues (text : String) : String × List (String × String) :=
  match parseJson text with
  | none => (text, [])
  | some parsed =>
    match parsed with
    | .obj fs =>
        match objGet fs "mcpServers" with
        | some (.obj servers) =>
            let r := maskServers servers
            if r.2 = [] then (text, [])
            else (stringify2 (.obj (objReplaceFirst fs "mcpServers" (.obj r.1))), r.2)
        | _ => (text, [])
    | _ => (text, [])

def unmaskEnvEntry (mp : List (String × String)) (sid : String) (p : String × Json) :
    (String × Json) × Bool :=
  match p.2 with
  | .str v =>
      if isSensitiveEnvKey p.1 then
        if v = MCPO_SENSITIVE_PLACEHOLDER then
          match lookupStr mp (buildEnvPath sid p.1) with
          | some orig => ((p.1, .str orig), true)
          | none => (p, false)
        else (p, false)
      else (p, false)
  | _ => (p, false)

def unmaskServerPair (mp : List (String × String)) (p : String × Json) :
    (String × Json) × Bool :=
  match p.2 with
  | .obj dfs =>
      match objGet dfs "env" with
      | some (.obj envFields) =>
          let es := envFields.map (unmaskEnvEntry mp p.1)
          ((p.1, .obj (objReplaceFirst dfs "env" (.obj (es.map Prod.fst)))),
            es.any Prod.snd)
      | _ => (p, false)
  | _ => (p, false)

/-- unmaskSensitiveEnvValues from mcpoConfig.ts; the error case models the
thrown exception for unparseable or non-object text. -/
def unmaskSensitiveEnvValues (text : String) (mp : List (String × String)) :
    Except String String :=
  match parseJson text with
  | none => .error "SyntaxError"
  | some parsed =>
    match parsed with
    | .obj fs =>
        match objGet fs "mcpServers" with
        | some (.obj servers) =>
            let rs := servers.map (unmaskServerPair mp)
            if rs.any Prod.snd then
              .ok (stringify2 (.obj (objReplaceFirst fs "mcpServers"
                (.obj (rs.map Prod.fst)))))
            else .ok text
        | _ => .ok text
    | _ => .error "Configuration must be a JSON object."

def backslashToSlash (cs : List Char) : List Char :=
  cs.map (fun c => if c = '\\' then '/' else c)

def dropLeadingSlashes : List Char → List Char
  | '/' :: rest => dropLeadingSlashes rest
  | cs => cs

/-- JavaScript String.split on the slash character. -/
def splitOnSlash : List Char → List (List Char)
  | [] => [[]]
  | c :: rest =>
      if c = '/' then [] :: splitOnSlash rest
      else
        match splitOnSlash rest with
        | [] => [[c]]
        | seg :: segs => (c :: seg) :: segs

def joinSlash : List (List Char) → List Char
  | [] => []
  | [seg] => seg
  | seg :: seg2 :: rest => seg ++ '/' :: joinSlash (seg2 :: rest)


def keepSegmentB (seg : List Char) : Bool :=
  !(seg == []) && !(seg == ['.']) && !(seg == ['.', '.'])

/-- normalizeRelativePath from mcpoConfig.ts; the error models the thrown
Invalid file path exception. -/
def normalizeRelativePath (path : String) : Except String String :=
  let segs := ((splitOnSlash (dropLeadingSlashes (backslashToSlash path.data))).map
    trimChars).filter keepSegmentB
  let sanitized := String.mk (joinSlash segs)
  if sanitized = "" then .error "Invalid file path for mcpo directory."
  else .ok sanitized

/-- Container side target path of writeFileToDockerMount for a relative path,
under the fixed /rdx-mcpo mount root. -/
def writeFileTargetPath (relativePath : String) : Except String String :=
  match normalizeRelativePath relativePath with
  | .ok s => .ok ("/rdx-mcpo/" ++ s)
  | .error e => .error e

/-- JavaScript String.startsWith. -/
def strStartsWithB (s p : String) : Bool := charsStarts s.data p.data

structure AccessGroupLists where
  group_ids : List String
  user_ids : List String
deriving DecidableEq

structure ToolAccessControl where
  read : AccessGroupLists
  write : AccessGroupLists
deriving DecidableEq

structure ToolServerConnectionConfig where
  enable : Bool
  function_name_filter_list : List String
  access_control : Option ToolAccessControl
deriving DecidableEq

structure ToolServerConnectionInfo where
  id : String
  name : String
  description : String
deriving DecidableEq

/-- RemoteToolConnection from openWebuiApi.ts. -/
structure ToolServerConnection where
  url : String
  path : String
  type : String
  auth_type : String
  headers : Option (List (String × String))
  key : String
  config : ToolServerConnectionConfig
  spec_type : String
  spec : String
  info : ToolServerConnectionInfo
deriving DecidableEq

structure ToolServerConfig where
  enableDirectConnections : Bool
  enableBaseModelsCache : Bool
  connections : List ToolServerConnection
deriving DecidableEq

/-- The managed tool id marker, source constant TOOL_SERVER_PREFIX. -/
def toolServerIdTag : String := "server:"

/-- buildToolServerConnection from the sync module: the deterministic
connection built for one managed server definition. -/
def buildToolServerConnection (server : McpoServerDefinition) : ToolServerConnection :=
  { url := server.url
    path := "openapi.json"
    type := "openapi"
    auth_type := "bearer"
    headers := none
    key := ""
    config :=
      { enable := true
        function_name_filter_list := []
        access_control := some
          { read := { group_ids := [], user_ids := [] }
            write := { group_ids := [], user_ids := [] } } }
    spec_type := "url"
    spec := ""
    info := { id := server.id, name := server.name, description := server.description } }

/-- Ownership test isManagedToolServer: the url is a string (always, in the
typed model) and starts with the proxy base URL. -/
def isManagedToolServer (connection : ToolServerConnection) : Bool :=
  strStartsWithB connection.url MCPO_BASE_URL

def insertHeaderSorted (p : String × String) :
    List (String × String) → List (String × String)
  | [] => [p]
  | q :: rest => if p.1 ≤ q.1 then p :: q :: rest else q :: insertHeaderSorted p rest

def sortHeaders (h : List (String × String)) : List (String × String) :=
  h.foldr insertHeaderSorted []

/-- normalizeHeaders: null headers normalize to the empty string, non-null
headers to the stringified entry list sorted by key; since the rendering is
injective the normal form is modelled by the sorted entry list itself. -/
def normalizeHeaders : Option (List (String × String)) → Option (List (String × String))
  | none => none
  | some h => some (sortHeaders h)

/-- areConnectionsEqual: the field-by-field comparison; stringify equality on
the config object coincides with structural equality in the typed model. -/
def areConnectionsEqual (a b : ToolServerConnection) : Bool :=
  a.url == b.url && a.path == b.path && a.type == b.type && a.auth_type == b.auth_type &&
    a.key == b.key && normalizeHeaders a.headers == normalizeHeaders b.headers &&
    a.config == b.config && a.spec_type == b.spec_type && a.spec == b.spec &&
    a.info.id == b.info.id && a.info.name == b.info.name &&
    a.info.description == b.info.description

/-- connectionsEqual: same length and index-wise areConnectionsEqual. -/
def connectionsEqual (a b : List ToolServerConnection) : Bool :=
  a.length == b.length && (a.zip b).all (fun p => areConnectionsEqual p.1 p.2)

/-- arraysEqual on string lists: same length and element-wise equality. -/
def arraysEqual (a b : List String) : Bool :=
  a.length == b.length && (a.zip b).all (fun p => p.1 == p.2)

/-- syncToolServers (pure part): recompute the connection list from the
fetched config and the managed definitions; the boolean records whether
saveToolServerConfig is called. -/
def syncToolServers (config : ToolServerConfig) (servers : List McpoServerDefinition) :
    ToolServerConfig × Bool :=
  let preserved := config.connections.filter (fun c => !isManagedToolServer c)
  let desiredConnections := servers.map buildToolServerConnection
  let nextConnections := preserved ++ desiredConnections
  if connectionsEqual config.connections nextConnections then (config, false)
  else
    ({ enableDirectConnections := config.enableDirectConnections
       enableBaseModelsCache := config.enableBaseModelsCache
       connections := nextConnections }, true)

/-- disableManagedToolServers (pure part): drop every managed connection. -/
def disableManagedToolServers (config : ToolServerConfig) : ToolServerConfig × Bool :=
  let nextConnections := config.connections.filter (fun c => !isManagedToolServer c)
  if connectionsEqual config.connections nextConnections then (config, false)
  else ({ config with connections := nextConnections }, true)

/-- Array.from(new Set(l)): first occurrence order deduplication. -/
def dedupFirst (l : List String) : List String :=
  l.foldl (fun acc x => if x ∈ acc then acc else acc ++ [x]) []

/-- The merged tool id list computed per model: foreign ids (without the
managed marker) kept verbatim, then each desired id appended unless already
present. -/
def mergedToolIds (current desired : List String) : List String :=
  let preserved := current.filter (fun id => !strStartsWithB id toolServerIdTag)
  desired.foldl (fun acc t => if t ∈ acc then acc else acc ++ [t]) preserved

/-- A model summary as returned by fetchModels: its id and raw info value. -/
structure ModelSummary where
  id : String
  info : Option Json
deriving DecidableEq

/-- The current tool id list read from model.info?.meta?.toolIds, keeping only
strings, empty when absent or not an array. -/
def modelToolIds (m : ModelSummary) : List String :=
  match m.info with
  | some (.obj ifs) =>
      match objGet ifs "meta" with
      | some (.obj mfs) =>
          match objGet mfs "toolIds" with
          | some (.arr xs) =>
              xs.filterMap (fun x => match x with | .str s => some s | _ => none)
          | _ => []
      | _ => []
  | _ => []

/-- Modelled remote store: after a successful upsert carrying toolIds, the
next fetch of this model reports exactly those ids in info.meta.toolIds. -/
def setModelToolIds (m : ModelSummary) (ids : List String) : ModelSummary :=
  let ifs := asObjFields ((m.info).getD (.obj []))
  let mfs := asObjFields ((objGet ifs "meta").getD (.obj []))
  { m with info := some (.obj (objSet ifs "meta"
      (.obj (objSet mfs "toolIds" (.arr (ids.map Json.str)))))) }

/-- One iteration of the model loop in syncModelToolAssignments: models with a
falsy id are skipped; otherwise the model is upserted with the merged list
exactly when it differs element-wise from the current one. -/
def stepModel (desired : List String) (m : ModelSummary) : ModelSummary × Bool :=
  if m.id = "" then (m, false)
  else
    let current := modelToolIds m
    let merged := mergedToolIds current desired
    if arraysEqual current merged then (m, false) else (setModelToolIds m merged, true)

/-- syncModelToolAssignments (pure part): the updated model list and the
number of upsert calls performed. -/
def syncModelToolAssignments (models : List ModelSummary) (serverIds : List String) :
    List ModelSummary × Nat :=
  let desiredToolIds := (dedupFirst serverIds).map (fun id => toolServerIdTag ++ id)
  let stepped := models.map (stepModel desiredToolIds)
  (stepped.map Prod.fst, stepped.countP Prod.snd)

/-- The remote state a reconciliation pass reads and writes. -/
structure RemoteState where
  toolConfig : ToolServerConfig
  models : List ModelSummary
deriving DecidableEq

/-- runSync: tool-server reconciliation followed by model reconciliation,
with the total number of write calls (saves plus upserts). -/
def runSyncModel (st : RemoteState) (configText : String) : RemoteState × Nat :=
  let servers := extractMcpoServers configText
  let r1 := syncToolServers st.toolConfig servers
  let r2 := syncModelToolAssignments st.models (servers.map McpoServerDefinition.id)
  (⟨r1.1, r2.1⟩, (if r1.2 then 1 else 0) + r2.2)

/-- clearManagedState: disable managed connections and clear managed ids. -/
def clearManagedState (st : RemoteState) : RemoteState × Nat :=
  let r1 := disableManagedToolServers st.toolConfig
  let r2 := syncModelToolAssignments st.models []
  (⟨r1.1, r2.1⟩, (if r1.2 then 1 else 0) + r2.2)

/-- One queued pass of syncMcpoWithOpenWebui: empty normalized text clears the
managed state, otherwise a full reconciliation runs. -/
def syncMcpoPass (st : RemoteState) (configText : String) : RemoteState × Nat :=
  let trimmed := normalizeConfigText configText
  if trimmed = "" then clearManagedState st
  else runSyncModel st trimmed

/-- The promise chain syncQueue: passes run one after the other in FIFO
order; a failed pass is caught so the chain continues with the next one. -/
def processSyncQueue (st : RemoteState) (docs : List String) : RemoteState :=
  docs.foldl (fun s doc => (syncMcpoPass s doc).1) st

/-- Possible outcomes of the HTTP round trip inside fetchModelDetails. -/
inductive DetailFetchOutcome where
  | ok (model : Json) : DetailFetchOutcome
  | okBadJson : DetailFetchOutcome
  | http404 : DetailFetchOutcome
  | httpErr (status : Nat) (body : String) : DetailFetchOutcome
  | netErr (message : String) : DetailFetchOutcome

/-- isNotFoundModelResponse from openWebuiApi.ts: a 404 status, or an error
body whose detail string mentions could not find or not found. -/
def isNotFoundModelResponse (status : Nat) (body : String) : Bool :=
  if status = 404 then true
  else
    match parseJson body with
    | some (.obj fs) =>
        match objGet fs "detail" with
        | some (.str detail) =>
            strContains (lowerStr detail) "could not find" ||
              strContains (lowerStr detail) "not found"
        | _ => false
    | _ => false

/-- The body of the try block in fetchModelDetails: an error value models a
thrown exception. -/
def fetchModelDetailsTry (o : DetailFetchOutcome) : Except String (Option Json) :=
  match o with
  | .ok m => .ok (some m)
  | .okBadJson => .error "invalid json body"
  | .http404 => .ok none
  | .httpErr status body =>
      if isNotFoundModelResponse status body then .ok none
      else .error (if body = "" then "failed to fetch model" else body)
  | .netErr msg => .error msg

/-- fetchModelDetails: the surrounding catch turns every thrown error into a
debug report and a null result. -/
def fetchModelDetails (o : DetailFetchOutcome) : Option Json :=
  match fetchModelDetailsTry o with
  | .ok r => r
  | .error _ => none

/-- Result of one POST to the model update or create endpoint; errStatus
carries the HTTP status attached to the thrown error by postModel. -/
inductive PostModelResult where
  | ok : PostModelResult
  | errStatus (status : Nat) : PostModelResult
  | errNet : PostModelResult
deriving DecidableEq

/-- Remote behavior an upsert run encounters. -/
structure UpsertRemoteBehavior where
  detail : DetailFetchOutcome
  updateResult : PostModelResult
  createResult : PostModelResult

/-- The network calls upsertModelWithToolIds can issue, with their payload. -/
inductive ModelApiCall where
  | updateCall (payload : Json) : ModelApiCall
  | createCall (payload : Json) : ModelApiCall
deriving DecidableEq

def ModelApiCall.isCreate : ModelApiCall → Bool
  | .createCall _ => true
  | _ => false

def ModelApiCall.isUpdate : ModelApiCall → Bool
  | .updateCall _ => true
  | _ => false

/-- Spread of an unknown JavaScript value into an object literal. -/
def spreadFields : Json → List (String × Json)
  | .obj fs => fs
  | .arr xs => xs.enum.map (fun p => (natStr p.1, p.2))
  | _ => []

/-- The update payload: the existing record with meta.toolIds replaced and
params.function_calling forced to native. -/
def upsertPayload (existing : Json) (toolIds : List String) : Json :=
  let fs := spreadFields existing
  .obj (objSet
    (objSet fs "meta"
      (.obj (objSet (spreadFields ((objGet fs "meta").getD .null)) "toolIds"
        (.arr (toolIds.map Json.str)))))
    "params"
    (.obj (objSet (spreadFields ((objGet fs "params").getD .null))
      "function_calling" (.str "native"))))

/-- buildDefaultModelPayload from the sync module. -/
def buildDefaultModelPayload (modelId : String) (toolIds : List String)
    (info : List (String × Json)) : Json :=
  let meta :=
    match objGet info "meta" with
    | some (.obj ms) => ms
    | some (.arr xs) => spreadFields (.arr xs)
    | _ => []
  let params :=
    match objGet info "params" with
    | some (.obj ps) => ps
    | some (.arr xs) => spreadFields (.arr xs)
    | _ => []
  let accessControl :=
    match objGet info "access_control" with
    | some (.obj ac) => Json.obj ac
    | some (.arr xs) => Json.arr xs
    | _ => Json.obj [("read", .obj [("group_ids", .arr []), ("user_ids", .arr [])]),
        ("write", .obj [("group_ids", .arr []), ("user_ids", .arr [])])]
  .obj [("id", .str modelId),
    ("name", match objGet info "name" with | some (.str s) => .str s | _ => .str modelId),
    ("base_model_id", (objGet info "base_model_id").getD .null),
    ("meta", .obj (objSet meta "toolIds" (.arr (toolIds.map Json.str)))),
    ("params", .obj (objSet params "function_calling" (.str "native"))),
    ("access_control", accessControl),
    ("is_active", .bool true),
    ("user_id", match objGet info "user_id" with | some (.str s) => .str s | _ => .str "system")]

/-- upsertModelWithToolIds: absent detail goes straight to create; an update
404 falls back to create once; any other update failure propagates. The
second component records the POST calls issued, in order. -/
def upsertModelWithToolIds (env : UpsertRemoteBehavior) (model : ModelSummary)
    (toolIds : List String) : Except String Unit × List ModelApiCall :=
  match fetchModelDetails env.detail with
  | none =>
      let payload := buildDefaultModelPayload model.id toolIds
        (asObjFields ((model.info).getD (.obj [])))
      match env.createResult with
      | .ok => (.ok (), [.createCall payload])
      | _ => (.error ("Failed to upsert model " ++ model.id), [.createCall payload])
  | some existing =>
      let payload := upsertPayload existing toolIds
      match env.updateResult with
      | .ok => (.ok (), [.updateCall payload])
      | .errStatus status =>
          if status = 404 then
            match env.createResult with
            | .ok => (.ok (), [.updateCall payload, .createCall payload])
            | _ => (.error ("Failed to upsert model " ++ model.id),
                [.updateCall payload, .createCall payload])
          else (.error ("Failed to upsert model " ++ model.id), [.updateCall payload])
      | .errNet => (.error ("Failed to upsert model " ++ model.id), [.updateCall payload])

/-- Open WebUI OpenAI connection config fields touched by the ensurer
(src/unnamed/part_004 and openAiConfig.ts). -/
structure OpenWebUIConfig where
  ENABLE_OPENAI_API : Bool
  OPENAI_API_BASE_URLS : Json
  OPENAI_API_KEYS : Json
  OPENAI_API_CONFIGS : Json
deriving DecidableEq

def DEFAULT_OPENAI_PROXY_BASE_URL : String := "http://host.docker.internal:11700"

def DEFAULT_OPENAI_PROXY_KEY : String := "0p3n-w3bu!"

/-- toStringArray from openAiConfig.ts. -/
def toStringArray (value : Json) : List String :=
  match value with
  | .arr xs => xs.filterMap (fun x => match x with | .str s => some s | _ => none)
  | _ => []

def jsonIsStr : Json → Bool
  | .str _ => true
  | _ => false

/-- cloneConfigEntry from openAiConfig.ts: a shallow copy whose known fields
are normalized (filtered arrays, deleted when ill-typed). -/
def cloneConfigEntry (value : Json) : List (String × Json) :=
  match value with
  | .obj fields =>
      let c1 := match objGet fields "tags" with
        | some (.arr xs) => objSet fields "tags" (.arr (xs.filter jsonIsStr))
        | _ => objDelete fields "tags"
      let c2 := match objGet c1 "model_ids" with
        | some (.arr xs) => objSet c1 "model_ids" (.arr (xs.filter jsonIsStr))
        | _ => objDelete c1 "model_ids"
      let c3 := match objGet c2 "prefix_id" with
        | some (.str _) => c2
        | _ => objDelete c2 "prefix_id"
      let c4 := match objGet c3 "connection_type" with
        | some (.str _) => c3
        | _ => objDelete c3 "connection_type"
      let c5 := match objGet c4 "auth_type" with
        | some (.str _) => c4
        | _ => objDelete c4 "auth_type"
      match objGet c5 "enable" with
      | some (.bool _) => c5
      | _ => objDelete c5 "enable"
  | _ => []

def dropTrailingSlashes (cs : List Char) : List Char :=
  (cs.reverse.dropWhile (fun c => c == '/')).reverse

/-- normalizeBaseUrl from src/unnamed/part_004: trim, strip trailing slashes,
lower case. -/
def normalizeBaseUrl (value : String) : String :=
  lowerStr (String.mk (dropTrailingSlashes (strTrim value).data))

/-- The normalized per-index config entry the ensurer installs at the target
index: the object literal spread with its fixed overrides, in source order. -/
def normalizedProxyEntry (targetEntry : List (String × Json)) : List (String × Json) :=
  let e1 := objSet targetEntry "enable" (.bool true)
  let e2 := objSet e1 "tags"
    (match objGet targetEntry "tags" with | some (.arr xs) => .arr xs | _ => .arr [])
  let e3 := objSet e2 "prefix_id"
    (match objGet targetEntry "prefix_id" with | some (.str s) => .str s | _ => .str "")
  let e4 := objSet e3 "model_ids"
    (match objGet targetEntry "model_ids" with | some (.arr xs) => .arr xs | _ => .arr [])
  let e5 := objSet e4 "connection_type" (.str "external")
  objSet e5 "auth_type" (.str "bearer")

/-- The index lookup of the ensurer: findIndex over normalized base urls. -/
def ensureIndex (baseUrls : List String) (target : String) : Option Nat :=
  baseUrls.findIdx? (fun url => normalizeBaseUrl url == target)

/-- The two while loops padding or truncating the key list to length n. -/
def padKeys (keys : List String) (n : Nat) : List String :=
  keys.take n ++ List.replicate (n - keys.length) ""

/-- The configsArray rebuild: one cloned entry per base url index. -/
def proxyConfigsArray (rawConfigs : List (String × Json)) (n : Nat) :
    List (List (String × Json)) :=
  (List.range n).map (fun i => cloneConfigEntry ((objGet rawConfigs (natStr i)).getD .null))

/-- The try-block of ensureOpenAiProxyConnection over the decoded fields of
the fetched config: trimmed base url, api key, decoded url and key string
arrays, raw configs record and the ENABLE_OPENAI_API flag. -/
def computeCore (trimmedBaseUrl apiKey : String) (baseUrls keys : List String)
    (rawConfigs : List (String × Json)) (enabled : Bool) : Bool × OpenWebUIConfig :=
  let idx0 := ensureIndex baseUrls (normalizeBaseUrl trimmedBaseUrl)
  let appended := idx0.isNone
  let baseUrls2 := if appended then baseUrls ++ [trimmedBaseUrl] else baseUrls
  let index := match idx0 with | some i => i | none => baseUrls.length
  let keys2 := padKeys keys baseUrls2.length
  let keyChanged := !(keys2.getD index "" == apiKey)
  let keys3 := if keyChanged then keys2.set index apiKey else keys2
  let configsArray := proxyConfigsArray rawConfigs baseUrls2.length
  let targetEntry := configsArray.getD index []
  let nEntry := normalizedProxyEntry targetEntry
  let entryChanged := !(decide (targetEntry = nEntry))
  let configsArray2 := if entryChanged then configsArray.set index nEntry else configsArray
  let changed := appended || keyChanged || entryChanged || !enabled
  (changed,
    { ENABLE_OPENAI_API := true
      OPENAI_API_BASE_URLS := .arr (baseUrls2.map Json.str)
      OPENAI_API_KEYS := .arr (keys3.map Json.str)
      OPENAI_API_CONFIGS := .obj ((configsArray2.enum).map
        (fun p => (natStr p.1, .obj p.2))) })

/-- The post-fetch computation of ensureOpenAiProxyConnection: the boolean is
the changed flag deciding the write-back, the config is the fully recomputed
tuple the write-back would persist. -/
def ensureOpenAiProxyConnectionCompute (baseUrl apiKey : String)
    (config : OpenWebUIConfig) : Bool × OpenWebUIConfig :=
  computeCore (strTrim baseUrl) apiKey (toStringArray config.OPENAI_API_BASE_URLS)
    (toStringArray config.OPENAI_API_KEYS)
    (match config.OPENAI_API_CONFIGS with | .obj fs => fs | _ => [])
    config.ENABLE_OPENAI_API

/-- The remote state after one successful ensurer run: written back only when
the changed flag is set, untouched otherwise. -/
def ensureOpenAiProxyConnectionRun (baseUrl apiKey : String) (config : OpenWebUIConfig) :
    OpenWebUIConfig × Bool :=
  let r := ensureOpenAiProxyConnectionCompute baseUrl apiKey config
  (if r.1 then r.2 else config, r.1)

/-- Field-by-field connection equality, spelled out as the specification lists
the compared fields. -/
def connFieldsEqual (a b : ToolServerConnection) : Prop :=
  a.url = b.url ∧ a.path = b.path ∧ a.type = b.type ∧ a.auth_type = b.auth_type ∧
    a.key = b.key ∧ normalizeHeaders a.headers = normalizeHeaders b.headers ∧
    a.config = b.config ∧ a.spec_type = b.spec_type ∧ a.spec = b.spec ∧
    a.info.id = b.info.id ∧ a.info.name = b.info.name ∧ a.info.description = b.info.description

theorem areConnectionsEqual_iff (a b : ToolServerConnection) :
    areConnectionsEqual a b = true ↔ connFieldsEqual a b := by
  simp only [areConnectionsEqual, connFieldsEqual, Bool.and_eq_true, beq_iff_eq]
  tauto

theorem connFieldsEqual_refl (a : ToolServerConnection) : connFieldsEqual a a := by
  simp [connFieldsEqual]

theorem connectionsEqual_iff : ∀ a b : List ToolServerConnection,
    connectionsEqual a b = true ↔ List.Forall₂ connFieldsEqual a b
  | [], [] => by simp [connectionsEqual]
  | [], y :: ys => by simp [connectionsEqual]
  | x :: xs, [] => by simp [connectionsEqual]
  | x :: xs, y :: ys => by
      have ih := connectionsEqual_iff xs ys
      simp only [connectionsEqual, Bool.and_eq_true, beq_iff_eq, List.length_cons,
        List.zip_cons_cons, List.all_cons, List.forall₂_cons] at *
      rw [← ih]
      constructor
      · rintro ⟨hlen, hxy, hall⟩
        exact ⟨(areConnectionsEqual_iff x y).mp hxy, by omega, hall⟩
      · rintro ⟨hxy, hlen, hall⟩
        exact ⟨by omega, (areConnectionsEqual_iff x y).mpr hxy, hall⟩

theorem connectionsEqual_refl (l : List ToolServerConnection) : connectionsEqual l l = true := by
  rw [connectionsEqual_iff]
  exact List.forall₂_same.mpr (fun x _ => connFieldsEqual_refl x)

theorem arraysEqual_iff : ∀ a b : List String, arraysEqual a b = true ↔ a = b
  | [], [] => by simp [arraysEqual]
  | [], y :: ys => by simp [arraysEqual]
  | x :: xs, [] => by simp [arraysEqual]
  | x :: xs, y :: ys => by
      have ih := arraysEqual_iff xs ys
      simp only [arraysEqual, Bool.and_eq_true, beq_iff_eq, List.length_cons,
        List.zip_cons_cons, List.all_cons, List.cons.injEq] at *
      rw [← ih]
      constructor
      · rintro ⟨hlen, hxy, hall⟩
        exact ⟨hxy, by omega, hall⟩
      · rintro ⟨hxy, hlen, hall⟩
        exact ⟨by omega, hxy, hall⟩

/-- Claim C1: tool-connection reconciliation keeps the foreign connections
(those whose url does not start with the proxy base URL) unchanged in order,
appends one deterministically built connection per managed entity, and issues
the single save call exactly when the recomputed list differs field-by-field
from the fetched one. -/
theorem c1_sync_tool_servers_spec (cfg : ToolServerConfig)
    (servers : List McpoServerDefinition) :
    ((syncToolServers cfg servers).2 = true ↔
      ¬ List.Forall₂ connFieldsEqual cfg.connections
          (cfg.connections.filter (fun c => !strStartsWithB c.url MCPO_BASE_URL) ++
            servers.map buildToolServerConnection))
    ∧ ((syncToolServers cfg servers).2 = true →
        (syncToolServers cfg servers).1 =
          { enableDirectConnections := cfg.enableDirectConnections
            enableBaseModelsCache := cfg.enableBaseModelsCache
            connections :=
              cfg.connections.filter (fun c => !strStartsWithB c.url MCPO_BASE_URL) ++
                servers.map buildToolServerConnection })
    ∧ ((syncToolServers cfg servers).2 = false → (syncToolServers cfg servers).1 = cfg) := by
  have hman : cfg.connections.filter (fun c => !isManagedToolServer c) =
      cfg.connections.filter (fun c => !strStartsWithB c.url MCPO_BASE_URL) := rfl
  by_cases h : connectionsEqual cfg.connections
      (cfg.connections.filter (fun c => !isManagedToolServer c) ++
        servers.map buildToolServerConnection) = true
  · have hsync : syncToolServers cfg servers = (cfg, false) := by
      simp only [syncToolServers]
      rw [if_pos h]
    have hf := (connectionsEqual_iff _ _).mp h
    rw [hman] at hf
    refine ⟨?_, ?_, ?_⟩
    · rw [hsync]
      simp [hf]
    · rw [hsync]
      simp
    · rw [hsync]
      intro
      rfl
  · have hsync : syncToolServers cfg servers =
        ({ enableDirectConnections := cfg.enableDirectConnections
           enableBaseModelsCache := cfg.enableBaseModelsCache
           connections :=
             cfg.connections.filter (fun c => !strStartsWithB c.url MCPO_BASE_URL) ++
               servers.map buildToolServerConnection }, true) := by
      simp only [syncToolServers]
      rw [if_neg h, hman]
    have hf : ¬ List.Forall₂ connFieldsEqual cfg.connections
        (cfg.connections.filter (fun c => !strStartsWithB c.url MCPO_BASE_URL) ++
          servers.map buildToolServerConnection) := by
      rw [← hman]
      intro hc
      exact h ((connectionsEqual_iff _ _).mpr hc)
    refine ⟨?_, ?_, ?_⟩
    · rw [hsync]
      simp [hf]
    · rw [hsync]
      intro
      rfl
    · rw [hsync]
      simp

def c1ForeignConnection : ToolServerConnection :=
  { url := "http://other/service", path := "x", type := "openapi", auth_type := "none",
    headers := some [("a", "b")], key := "k",
    config := { enable := false, function_name_filter_list := ["f"], access_control := none },
    spec_type := "url", spec := "s",
    info := { id := "srv", name := "Other", description := "d" } }

def c1StaleServer : McpoServerDefinition :=
  { id := "old", name := "old", description := "", url := MCPO_BASE_URL ++ "/old" }

def c1Cfg : ToolServerConfig :=
  { enableDirectConnections := true, enableBaseModelsCache := false,
    connections := [c1ForeignConnection, buildToolServerConnection c1StaleServer] }

def c1Server : McpoServerDefinition :=
  { id := "time", name := "time", description := "", url := MCPO_BASE_URL ++ "/time" }

/-- Witness for C1 at a concrete remote list of one foreign connection and one
stale managed connection, reconciled against one declared entity. -/
theorem c1_witness :
    (syncToolServers c1Cfg [c1Server]).1.connections =
        [c1ForeignConnection, buildToolServerConnection c1Server] ∧
      (syncToolServers c1Cfg [c1Server]).2 = true := by
  have htrue : (syncToolServers c1Cfg [c1Server]).2 = true := by decide
  have h := (c1_sync_tool_servers_spec c1Cfg [c1Server]).2.1 htrue
  constructor
  · rw [h]
    decide
  · exact htrue

theorem string_data_inj {a b : String} (h : a.data = b.data) : a = b := by
  cases a
  cases b
  exact congrArg String.mk (by simpa using h)

theorem strStartsWithB_append (p s : String) : strStartsWithB (p ++ s) p = true := by
  simp only [strStartsWithB, String.data_append]
  exact charsStarts_append_self _ _

theorem strAppend_left_cancel {p a b : String} (h : p ++ a = p ++ b) : a = b := by
  apply string_data_inj
  have h2 := congrArg String.data h
  simp only [String.data_append] at h2
  exact List.append_cancel_left h2

theorem foldl_dedup_append (d : List String) :
    ∀ acc, d.Nodup →
      d.foldl (fun acc t => if t ∈ acc then acc else acc ++ [t]) acc =
        acc ++ d.filter (fun t => decide (t ∉ acc)) := by
  induction d with
  | nil =>
      intro acc _
      simp
  | cons t d ih =>
      intro acc hnd
      rw [List.nodup_cons] at hnd
      by_cases hm : t ∈ acc
      · simp only [List.foldl_cons, if_pos hm]
        rw [ih acc hnd.2]
        simp [List.filter_cons, hm]
      · simp only [List.foldl_cons, if_neg hm]
        rw [ih (acc ++ [t]) hnd.2]
        have hf : d.filter (fun x => decide (x ∉ acc ++ [t])) =
            d.filter (fun x => decide (x ∉ acc)) := by
          apply List.filter_congr
          intro x hx
          have hxt : x ≠ t := fun he => hnd.1 (he ▸ hx)
          simp [List.mem_append, hxt]
        rw [hf]
        simp [List.filter_cons, hm, List.append_assoc]

theorem foldl_dedup_nodup (l : List String) : ∀ acc : List String, acc.Nodup →
    (l.foldl (fun acc x => if x ∈ acc then acc else acc ++ [x]) acc).Nodup := by
  induction l with
  | nil =>
      intro acc h
      simpa using h
  | cons x l ih =>
      intro acc h
      by_cases hm : x ∈ acc
      · simpa [hm] using ih acc h
      · have h2 : (acc ++ [x]).Nodup := by
          simp [List.nodup_append, h, hm]
        simpa [hm] using ih _ h2

theorem dedupFirst_nodup (l : List String) : (dedupFirst l).Nodup :=
  foldl_dedup_nodup l [] (by simp)

/-- The desired tool id list "server:" ++ id over deduplicated ids. -/
def desiredToolIdsFor (serverIds : List String) : List String :=
  (dedupFirst serverIds).map (fun id => toolServerIdTag ++ id)

theorem desiredToolIdsFor_nodup (serverIds : List String) :
    (desiredToolIdsFor serverIds).Nodup :=
  (dedupFirst_nodup serverIds).map (fun _ _ h => strAppend_left_cancel h)

theorem desiredToolIdsFor_tagged (serverIds : List String) :
    ∀ t ∈ desiredToolIdsFor serverIds, strStartsWithB t toolServerIdTag = true := by
  intro t ht
  obtain ⟨id, _, rfl⟩ := List.mem_map.mp ht
  exact strStartsWithB_append _ _

theorem mergedToolIds_eq (current desired : List String) (hnd : desired.Nodup) :
    mergedToolIds current desired =
      current.filter (fun id => !strStartsWithB id toolServerIdTag) ++
        desired.filter (fun t =>
          decide (t ∉ current.filter (fun id => !strStartsWithB id toolServerIdTag))) := by
  unfold mergedToolIds
  exact foldl_dedup_append desired _ hnd

theorem objGet_objSet_self (fs : List (String × Json)) (k : String) (v : Json) :
    objGet (objSet fs k v) k = some v := by
  induction fs with
  | nil => simp [objSet, objGet]
  | cons f fs ih =>
      by_cases hk : f.1 = k
      · simp [objSet, objGet, hk]
      · simp [objSet, objGet, hk, ih]

theorem filterMap_str_map (xs : List String) :
    (xs.map Json.str).filterMap
      (fun x => match x with | .str s => some s | _ => none) = xs := by
  induction xs with
  | nil => rfl
  | cons x xs ih =>
      rw [List.map_cons, List.filterMap_cons]
      simpa using ih

theorem filterMap_str_comp (ids : List String) :
    ids.filterMap ((fun x => match x with | Json.str s => some s | _ => none) ∘ Json.str)
      = ids := by
  induction ids with
  | nil => rfl
  | cons x xs ih =>
      rw [List.filterMap_cons]
      simpa using ih

theorem modelToolIds_setModelToolIds (m : ModelSummary) (ids : List String) :
    modelToolIds (setModelToolIds m ids) = ids := by
  unfold setModelToolIds modelToolIds
  simp [objGet_objSet_self, filterMap_str_map, filterMap_str_comp]

theorem stepModel_id (desired : List String) (m : ModelSummary) :
    ((stepModel desired m).1).id = m.id := by
  unfold stepModel
  by_cases hid : m.id = ""
  · simp [hid]
  · rw [if_neg hid]
    by_cases he : arraysEqual (modelToolIds m) (mergedToolIds (modelToolIds m) desired) = true
    · rw [if_pos he]
    · rw [if_neg he]
      rfl

theorem stepModel_spec (desired : List String) (m : ModelSummary) (hid : ¬m.id = "") :
    modelToolIds (stepModel desired m).1 = mergedToolIds (modelToolIds m) desired ∧
      ((stepModel desired m).2 = true ↔
        mergedToolIds (modelToolIds m) desired ≠ modelToolIds m) := by
  unfold stepModel
  rw [if_neg hid]
  by_cases he : arraysEqual (modelToolIds m) (mergedToolIds (modelToolIds m) desired) = true
  · have heq := (arraysEqual_iff _ _).mp he
    rw [if_pos he]
    exact ⟨heq, by simp [← heq]⟩
  · have hne : mergedToolIds (modelToolIds m) desired ≠ modelToolIds m := fun hc =>
      he ((arraysEqual_iff _ _).mpr hc.symm)
    rw [if_neg he]
    exact ⟨modelToolIds_setModelToolIds m _, by simp [hne]⟩

/-- Counterexample to C2 as stated: a fetched summary whose id is empty is
skipped by the loop, so no upsert happens although the merged list differs
from the current one. -/
theorem c2_counterexample :
    (syncModelToolAssignments [{ id := "", info := none }] ["a"]).2 = 0 ∧
      mergedToolIds (modelToolIds { id := "", info := none })
          (desiredToolIdsFor ["a"]) ≠
        modelToolIds { id := "", info := none } := by
  constructor
  · decide
  · decide

/-- Claim C2 as amended: for every fetched model with a non-empty id, the
merged list is the current list with managed-marker ids removed (foreign ids
verbatim, in order) followed by the deduplicated desired ids not already
present, and the model is upserted exactly when that merged list differs
element-wise from the current one. Models with an empty id are skipped. -/
theorem c2_model_tool_assignment_spec (models : List ModelSummary) (serverIds : List String) :
    (syncModelToolAssignments models serverIds).1 =
        models.map (fun m => (stepModel (desiredToolIdsFor serverIds) m).1)
    ∧ (∀ m : ModelSummary, m.id ≠ "" →
        modelToolIds (stepModel (desiredToolIdsFor serverIds) m).1 =
            (modelToolIds m).filter (fun id => !strStartsWithB id toolServerIdTag) ++
              (desiredToolIdsFor serverIds).filter (fun t =>
                decide (t ∉ (modelToolIds m).filter
                  (fun id => !strStartsWithB id toolServerIdTag)))
          ∧ ((stepModel (desiredToolIdsFor serverIds) m).2 = true ↔
              mergedToolIds (modelToolIds m) (desiredToolIdsFor serverIds) ≠ modelToolIds m))
    ∧ (∀ m : ModelSummary, m.id = "" →
        stepModel (desiredToolIdsFor serverIds) m = (m, false)) := by
  refine ⟨?_, ?_, ?_⟩
  · simp [syncModelToolAssignments, desiredToolIdsFor, List.map_map]
  · intro m hid
    have hs := stepModel_spec (desiredToolIdsFor serverIds) m hid
    refine ⟨?_, hs.2⟩
    rw [hs.1, mergedToolIds_eq _ _ (desiredToolIdsFor_nodup serverIds)]
  · intro m hid
    unfold stepModel
    rw [if_pos hid]

def c2Model : ModelSummary :=
  { id := "gpt", info := some (.obj [("meta", .obj [("toolIds",
      .arr [.str "foreign", .str "server:gone"])])]) }

/-- Witness for C2 at a concrete model carrying one foreign and one stale
managed tool id, reconciled against one declared entity. -/
theorem c2_witness :
    modelToolIds (stepModel (desiredToolIdsFor ["time"]) c2Model).1 =
        ["foreign", "server:time"] ∧
      (stepModel (desiredToolIdsFor ["time"]) c2Model).2 = true := by
  have h := (c2_model_tool_assignment_spec [c2Model] ["time"]).2.1 c2Model (by decide)
  constructor
  · rw [h.1]
    decide
  · rw [h.2]
    decide

theorem extractMcpoServers_url (t : String) :
    ∀ s ∈ extractMcpoServers t, s.url = MCPO_BASE_URL ++ "/" ++ s.id := by
  intro s hs
  unfold extractMcpoServers at hs
  obtain ⟨p, hp, he⟩ := List.mem_filterMap.mp hs
  by_cases hid : p.1 = ""
  · simp [hid] at he
  · simp only [hid, if_false, Option.some.injEq] at he
    rw [← he]

theorem arraysEqual_refl (l : List String) : arraysEqual l l = true :=
  (arraysEqual_iff l l).mpr rfl

theorem built_isManaged {s : McpoServerDefinition} (h : s.url = MCPO_BASE_URL ++ "/" ++ s.id) :
    isManagedToolServer (buildToolServerConnection s) = true := by
  simp only [isManagedToolServer, buildToolServerConnection, h]
  have hassoc : MCPO_BASE_URL ++ "/" ++ s.id = MCPO_BASE_URL ++ ("/" ++ s.id) := by
    apply string_data_inj
    simp [String.data_append, List.append_assoc]
  rw [hassoc]
  exact strStartsWithB_append _ _

theorem filter_foreign_stable (l built : List ToolServerConnection)
    (hb : ∀ c ∈ built, isManagedToolServer c = true) :
    (l.filter (fun c => !isManagedToolServer c) ++ built).filter
        (fun c => !isManagedToolServer c) =
      l.filter (fun c => !isManagedToolServer c) := by
  rw [List.filter_append]
  have h1 : (l.filter (fun c => !isManagedToolServer c)).filter
      (fun c => !isManagedToolServer c) = l.filter (fun c => !isManagedToolServer c) := by
    rw [List.filter_filter]
    apply List.filter_congr
    intro x _
    rw [Bool.and_self]
  have h2 : built.filter (fun c => !isManagedToolServer c) = [] := by
    rw [List.filter_eq_nil_iff]
    intro c hc
    simp [hb c hc]
  rw [h1, h2, List.append_nil]

theorem syncToolServers_idem (cfg : ToolServerConfig) (servers : List McpoServerDefinition)
    (hm : ∀ s ∈ servers, isManagedToolServer (buildToolServerConnection s) = true) :
    (syncToolServers (syncToolServers cfg servers).1 servers).2 = false := by
  have hbuilt : ∀ c ∈ servers.map buildToolServerConnection, isManagedToolServer c = true := by
    intro c hc
    obtain ⟨s, hs, rfl⟩ := List.mem_map.mp hc
    exact hm s hs
  by_cases h : connectionsEqual cfg.connections
      (cfg.connections.filter (fun c => !isManagedToolServer c) ++
        servers.map buildToolServerConnection) = true
  · have h1 : syncToolServers cfg servers = (cfg, false) := by
      unfold syncToolServers
      rw [if_pos h]
    rw [h1]
    unfold syncToolServers
    rw [if_pos h]
  · have h1 : syncToolServers cfg servers =
        ({ enableDirectConnections := cfg.enableDirectConnections
           enableBaseModelsCache := cfg.enableBaseModelsCache
           connections := cfg.connections.filter (fun c => !isManagedToolServer c) ++
             servers.map buildToolServerConnection }, true) := by
      unfold syncToolServers
      rw [if_neg h]
    rw [h1]
    unfold syncToolServers
    simp only [filter_foreign_stable _ _ hbuilt]
    rw [if_pos (connectionsEqual_refl _)]

theorem disable_eq_sync_nil (cfg : ToolServerConfig) :
    disableManagedToolServers cfg = syncToolServers cfg [] := by
  unfold disableManagedToolServers syncToolServers
  simp

theorem disable_idem (cfg : ToolServerConfig) :
    (disableManagedToolServers (disableManagedToolServers cfg).1).2 = false := by
  rw [disable_eq_sync_nil, disable_eq_sync_nil]
  exact syncToolServers_idem cfg [] (by simp)

theorem mergedToolIds_idem (current desired : List String) (hnd : desired.Nodup)
    (htag : ∀ t ∈ desired, strStartsWithB t toolServerIdTag = true) :
    mergedToolIds (mergedToolIds current desired) desired =
      mergedToolIds current desired := by
  have hp : (mergedToolIds current desired).filter
      (fun id => !strStartsWithB id toolServerIdTag) =
      current.filter (fun id => !strStartsWithB id toolServerIdTag) := by
    rw [mergedToolIds_eq current desired hnd, List.filter_append]
    have h1 : ((current.filter (fun id => !strStartsWithB id toolServerIdTag)).filter
        (fun id => !strStartsWithB id toolServerIdTag)) =
        current.filter (fun id => !strStartsWithB id toolServerIdTag) := by
      rw [List.filter_filter]
      apply List.filter_congr
      intro x _
      rw [Bool.and_self]
    have h2 : ((desired.filter (fun t => decide (t ∉ current.filter
        (fun id => !strStartsWithB id toolServerIdTag)))).filter
        (fun id => !strStartsWithB id toolServerIdTag)) = [] := by
      rw [List.filter_eq_nil_iff]
      intro t ht
      have := htag t (List.mem_of_mem_filter ht)
      simp [this]
    rw [h1, h2, List.append_nil]
  rw [mergedToolIds_eq (mergedToolIds current desired) desired hnd, hp,
    ← mergedToolIds_eq current desired hnd]

theorem stepModel_idem (desired : List String) (m : ModelSummary) (hnd : desired.Nodup)
    (htag : ∀ t ∈ desired, strStartsWithB t toolServerIdTag = true) :
    (stepModel desired (stepModel desired m).1).2 = false := by
  by_cases hid : m.id = ""
  · have h1 : stepModel desired m = (m, false) := by
      unfold stepModel
      rw [if_pos hid]
    rw [h1]
    unfold stepModel
    rw [if_pos hid]
  · by_cases he : arraysEqual (modelToolIds m) (mergedToolIds (modelToolIds m) desired) = true
    · have h1 : stepModel desired m = (m, false) := by
        unfold stepModel
        rw [if_neg hid, if_pos he]
      rw [h1]
      unfold stepModel
      rw [if_neg hid, if_pos he]
    · have h1 : stepModel desired m =
          (setModelToolIds m (mergedToolIds (modelToolIds m) desired), true) := by
        unfold stepModel
        rw [if_neg hid, if_neg he]
      rw [h1]
      unfold stepModel
      have hid2 : ¬(setModelToolIds m (mergedToolIds (modelToolIds m) desired)).id = "" := by
        simpa [setModelToolIds] using hid
      rw [if_neg hid2]
      simp [modelToolIds_setModelToolIds, mergedToolIds_idem _ _ hnd htag, arraysEqual_refl]

theorem syncModelToolAssignments_idem (models : List ModelSummary) (serverIds : List String) :
    (syncModelToolAssignments (syncModelToolAssignments models serverIds).1 serverIds).2 = 0 := by
  unfold syncModelToolAssignments
  rw [List.countP_eq_zero]
  intro x hx
  simp only [List.map_map, List.mem_map, Function.comp] at hx
  obtain ⟨m, _, rfl⟩ := hx
  have := stepModel_idem ((dedupFirst serverIds).map (fun id => toolServerIdTag ++ id)) m
    (desiredToolIdsFor_nodup serverIds) (desiredToolIdsFor_tagged serverIds)
  simp [this]

/-- Claim C3: reconciling a second time against the same document text and
the state left by the first pass performs zero write calls: the connection
save and every model upsert are skipped. -/
theorem c3_second_pass_no_writes (st : RemoteState) (configText : String) :
    (syncMcpoPass (syncMcpoPass st configText).1 configText).2 = 0 := by
  by_cases ht : normalizeConfigText configText = ""
  · simp only [syncMcpoPass, if_pos ht]
    have h1 := disable_idem st.toolConfig
    have h2 := syncModelToolAssignments_idem st.models ([] : List String)
    simp [clearManagedState, h1, h2]
  · simp only [syncMcpoPass, if_neg ht]
    have hm : ∀ s ∈ extractMcpoServers (normalizeConfigText configText),
        isManagedToolServer (buildToolServerConnection s) = true := fun s hs =>
      built_isManaged (extractMcpoServers_url _ s hs)
    have h1 := syncToolServers_idem st.toolConfig _ hm
    have h2 := syncModelToolAssignments_idem st.models
      ((extractMcpoServers (normalizeConfigText configText)).map McpoServerDefinition.id)
    simp [runSyncModel, h1, h2]

/-- The managed entity list a queued pass works from: none for an empty
normalized document, the extracted list otherwise. -/
def syncPassServers (doc : String) : List McpoServerDefinition :=
  if normalizeConfigText doc = "" then [] else extractMcpoServers (normalizeConfigText doc)

theorem syncPassServers_managed (doc : String) :
    ∀ s ∈ syncPassServers doc, isManagedToolServer (buildToolServerConnection s) = true := by
  intro s hs
  unfold syncPassServers at hs
  by_cases ht : normalizeConfigText doc = ""
  · simp [ht] at hs
  · rw [if_neg ht] at hs
    exact built_isManaged (extractMcpoServers_url _ s hs)

theorem syncMcpoPass_eq (st : RemoteState) (doc : String) :
    syncMcpoPass st doc =
      (⟨(syncToolServers st.toolConfig (syncPassServers doc)).1,
        (syncModelToolAssignments st.models
          ((syncPassServers doc).map McpoServerDefinition.id)).1⟩,
      (if (syncToolServers st.toolConfig (syncPassServers doc)).2 then 1 else 0) +
        (syncModelToolAssignments st.models
          ((syncPassServers doc).map McpoServerDefinition.id)).2) := by
  unfold syncMcpoPass syncPassServers
  by_cases ht : normalizeConfigText doc = ""
  · simp only [if_pos ht]
    simp [clearManagedState, disable_eq_sync_nil]
  · simp only [if_neg ht]
    rfl

theorem forall₂_connFieldsEqual_refl (l : List ToolServerConnection) :
    List.Forall₂ connFieldsEqual l l :=
  List.forall₂_same.mpr (fun x _ => connFieldsEqual_refl x)

theorem syncToolServers_latest (cfg : ToolServerConfig) (s1 s2 : List McpoServerDefinition)
    (hm1 : ∀ s ∈ s1, isManagedToolServer (buildToolServerConnection s) = true) :
    List.Forall₂ connFieldsEqual
      ((syncToolServers (syncToolServers cfg s1).1 s2).1.connections)
      (cfg.connections.filter (fun c => !isManagedToolServer c) ++
        s2.map buildToolServerConnection) := by
  have hbuilt1 : ∀ c ∈ s1.map buildToolServerConnection, isManagedToolServer c = true := by
    intro c hc
    obtain ⟨s, hs, rfl⟩ := List.mem_map.mp hc
    exact hm1 s hs
  by_cases h1 : connectionsEqual cfg.connections
      (cfg.connections.filter (fun c => !isManagedToolServer c) ++
        s1.map buildToolServerConnection) = true
  · have he1 : syncToolServers cfg s1 = (cfg, false) := by
      unfold syncToolServers
      rw [if_pos h1]
    rw [he1]
    by_cases h2 : connectionsEqual cfg.connections
        (cfg.connections.filter (fun c => !isManagedToolServer c) ++
          s2.map buildToolServerConnection) = true
    · have he2 : syncToolServers cfg s2 = (cfg, false) := by
        unfold syncToolServers
        rw [if_pos h2]
      rw [he2]
      exact (connectionsEqual_iff _ _).mp h2
    · have he2 : syncToolServers cfg s2 =
          ({ enableDirectConnections := cfg.enableDirectConnections
             enableBaseModelsCache := cfg.enableBaseModelsCache
             connections := cfg.connections.filter (fun c => !isManagedToolServer c) ++
               s2.map buildToolServerConnection }, true) := by
        unfold syncToolServers
        rw [if_neg h2]
      rw [he2]
      exact forall₂_connFieldsEqual_refl _
  · have he1 : syncToolServers cfg s1 =
        ({ enableDirectConnections := cfg.enableDirectConnections
           enableBaseModelsCache := cfg.enableBaseModelsCache
           connections := cfg.connections.filter (fun c => !isManagedToolServer c) ++
             s1.map buildToolServerConnection }, true) := by
      unfold syncToolServers
      rw [if_neg h1]
    rw [he1]
    unfold syncToolServers
    simp only [filter_foreign_stable _ _ hbuilt1]
    by_cases h2 : connectionsEqual
        (cfg.connections.filter (fun c => !isManagedToolServer c) ++
          s1.map buildToolServerConnection)
        (cfg.connections.filter (fun c => !isManagedToolServer c) ++
          s2.map buildToolServerConnection) = true
    · rw [if_pos h2]
      exact (connectionsEqual_iff _ _).mp h2
    · rw [if_neg h2]
      exact forall₂_connFieldsEqual_refl _

theorem mergedToolIds_preserved (current d : List String) (hnd : d.Nodup)
    (htag : ∀ t ∈ d, strStartsWithB t toolServerIdTag = true) :
    (mergedToolIds current d).filter (fun id => !strStartsWithB id toolServerIdTag) =
      current.filter (fun id => !strStartsWithB id toolServerIdTag) := by
  rw [mergedToolIds_eq current d hnd, List.filter_append]
  have h1 : ((current.filter (fun id => !strStartsWithB id toolServerIdTag)).filter
      (fun id => !strStartsWithB id toolServerIdTag)) =
      current.filter (fun id => !strStartsWithB id toolServerIdTag) := by
    rw [List.filter_filter]
    apply List.filter_congr
    intro x _
    rw [Bool.and_self]
  have h2 : ((d.filter (fun t => decide (t ∉ current.filter
      (fun id => !strStartsWithB id toolServerIdTag)))).filter
      (fun id => !strStartsWithB id toolServerIdTag)) = [] := by
    rw [List.filter_eq_nil_iff]
    intro t ht
    have := htag t (List.mem_of_mem_filter ht)
    simp [this]
  rw [h1, h2, List.append_nil]

theorem stepModel_latest (d1 d2 : List String) (m : ModelSummary)
    (hnd1 : d1.Nodup) (htag1 : ∀ t ∈ d1, strStartsWithB t toolServerIdTag = true)
    (hnd2 : d2.Nodup) :
    (m.id = "" → (stepModel d2 (stepModel d1 m).1).1 = m) ∧
      (¬m.id = "" → modelToolIds (stepModel d2 (stepModel d1 m).1).1 =
        (modelToolIds m).filter (fun id => !strStartsWithB id toolServerIdTag) ++
          d2.filter (fun t => decide (t ∉ (modelToolIds m).filter
            (fun id => !strStartsWithB id toolServerIdTag)))) := by
  constructor
  · intro hid
    have h1 : stepModel d1 m = (m, false) := by
      unfold stepModel
      rw [if_pos hid]
    rw [h1]
    unfold stepModel
    rw [if_pos hid]
  · intro hid
    have hid1 : ¬((stepModel d1 m).1).id = "" := by
      rw [stepModel_id]
      exact hid
    have hs1 := (stepModel_spec d1 m hid).1
    have hs2 := (stepModel_spec d2 (stepModel d1 m).1 hid1).1
    rw [hs2, hs1]
    rw [mergedToolIds_eq _ d2 hnd2, mergedToolIds_preserved _ d1 hnd1 htag1]

/-- Claim C4: reconciliation requests form a single FIFO queue (appending a
request runs it after all previously queued ones), two back-to-back passes
run strictly in order, and after two passes with different snapshots the
remote ends in the state implied by the second document alone: the connection
list is field-wise the original foreign connections followed by the second
document's built connections, and every model's tool list is its foreign ids
followed by the second document's desired ids. -/
theorem c4_fifo_latest_wins :
    (∀ (st : RemoteState) (docs : List String) (doc : String),
      processSyncQueue st (docs ++ [doc]) = (syncMcpoPass (processSyncQueue st docs) doc).1)
    ∧ (∀ (st : RemoteState) (d1 d2 : String),
        processSyncQueue st [d1, d2] = (syncMcpoPass (syncMcpoPass st d1).1 d2).1)
    ∧ (∀ (st : RemoteState) (d1 d2 : String),
        List.Forall₂ connFieldsEqual
            (processSyncQueue st [d1, d2]).toolConfig.connections
            (st.toolConfig.connections.filter (fun c => !isManagedToolServer c) ++
              (syncPassServers d2).map buildToolServerConnection)
          ∧ List.Forall₂ (fun (m0 mf : ModelSummary) =>
              (m0.id = "" → mf = m0) ∧
              (¬m0.id = "" → modelToolIds mf =
                (modelToolIds m0).filter (fun id => !strStartsWithB id toolServerIdTag) ++
                  (desiredToolIdsFor ((syncPassServers d2).map McpoServerDefinition.id)).filter
                    (fun t => decide (t ∉ (modelToolIds m0).filter
                      (fun id => !strStartsWithB id toolServerIdTag)))))
            st.models (processSyncQueue st [d1, d2]).models) := by
  refine ⟨?_, ?_, ?_⟩
  · intro st docs doc
    unfold processSyncQueue
    rw [List.foldl_append]
    rfl
  · intro st d1 d2
    rfl
  · intro st d1 d2
    have hq : processSyncQueue st [d1, d2] = (syncMcpoPass (syncMcpoPass st d1).1 d2).1 := rfl
    rw [hq, syncMcpoPass_eq, syncMcpoPass_eq]
    constructor
    · exact syncToolServers_latest st.toolConfig _ _ (syncPassServers_managed d1)
    · simp only [syncModelToolAssignments, List.map_map]
      rw [List.forall₂_map_right_iff]
      rw [List.forall₂_same]
      intro m hm
      have hl := stepModel_latest (desiredToolIdsFor ((syncPassServers d1).map McpoServerDefinition.id))
        (desiredToolIdsFor ((syncPassServers d2).map McpoServerDefinition.id)) m
        (desiredToolIdsFor_nodup _) (desiredToolIdsFor_tagged _) (desiredToolIdsFor_nodup _)
      constructor
      · intro hid
        simpa [Function.comp, desiredToolIdsFor] using hl.1 hid
      · intro hid
        simpa [Function.comp, desiredToolIdsFor] using hl.2 hid

def c4St : RemoteState := ⟨⟨false, false, []⟩, []⟩

/-- Witness for C4 at a concrete state and two enqueued documents. -/
theorem c4_witness :
    processSyncQueue c4St ["", "x"] = (syncMcpoPass (syncMcpoPass c4St "").1 "x").1 :=
  c4_fifo_latest_wins.2.1 c4St "" "x"

theorem splitOnSlash_ne_nil : ∀ l : List Char, splitOnSlash l ≠ []
  | [] => by simp [splitOnSlash]
  | c :: rest => by
      by_cases hc : c = '/'
      · simp [splitOnSlash, hc]
      · have := splitOnSlash_ne_nil rest
        simp only [splitOnSlash, if_neg hc]
        cases hs : splitOnSlash rest with
        | nil => exact absurd hs this
        | cons seg segs => simp

theorem splitOnSlash_no_slash : ∀ (l : List Char), ∀ seg ∈ splitOnSlash l, '/' ∉ seg
  | [] => by
      intro seg hseg
      simp [splitOnSlash] at hseg
      simp [hseg]
  | c :: rest => by
      intro seg hseg
      by_cases hc : c = '/'
      · simp only [splitOnSlash, if_pos hc] at hseg
        rcases List.mem_cons.mp hseg with h | h
        · simp [h]
        · exact splitOnSlash_no_slash rest seg h
      · simp only [splitOnSlash, if_neg hc] at hseg
        cases hs : splitOnSlash rest with
        | nil => exact absurd hs (splitOnSlash_ne_nil rest)
        | cons s ss =>
            rw [hs] at hseg
            rcases List.mem_cons.mp hseg with h | h
            · subst h
              intro hmem
              rcases List.mem_cons.mp hmem with h2 | h2
              · exact hc h2.symm
              · exact splitOnSlash_no_slash rest s (hs ▸ List.mem_cons_self s ss) h2
            · exact splitOnSlash_no_slash rest seg (hs ▸ List.mem_cons_of_mem s h)

theorem splitOnSlash_single (p : List Char) (hp : '/' ∉ p) : splitOnSlash p = [p] := by
  induction p with
  | nil => rfl
  | cons c cs ih =>
      have hc : ¬c = '/' := fun he => hp (he ▸ List.mem_cons_self c cs)
      have hcs := ih (fun hm => hp (List.mem_cons_of_mem c hm))
      simp [splitOnSlash, hc, hcs]

theorem splitOnSlash_append_slash (p : List Char) (t : List Char) (hp : '/' ∉ p) :
    splitOnSlash (p ++ '/' :: t) = p :: splitOnSlash t := by
  induction p with
  | nil => simp [splitOnSlash]
  | cons c cs ih =>
      have hc : ¬c = '/' := fun he => hp (he ▸ List.mem_cons_self c cs)
      have hcs := ih (fun hm => hp (List.mem_cons_of_mem c hm))
      simp [splitOnSlash, hc, hcs]

theorem splitOnSlash_joinSlash : ∀ (parts : List (List Char)), parts ≠ [] →
    (∀ p ∈ parts, '/' ∉ p) → splitOnSlash (joinSlash parts) = parts
  | [], h, _ => absurd rfl h
  | [p], _, hs => by
      rw [joinSlash]
      exact splitOnSlash_single p (hs p (List.mem_cons_self p []))
  | p :: q :: rest, _, hs => by
      rw [joinSlash, splitOnSlash_append_slash p _ (hs p (List.mem_cons_self p _))]
      rw [splitOnSlash_joinSlash (q :: rest) (by simp)
        (fun x hx => hs x (List.mem_cons_of_mem p hx))]

theorem mem_trimChars {x : Char} {l : List Char} (h : x ∈ trimChars l) : x ∈ l := by
  unfold trimChars at h
  rw [List.mem_reverse] at h
  have h2 := (List.dropWhile_sublist (l := (l.dropWhile Char.isWhitespace).reverse)
    (p := Char.isWhitespace)).subset h
  rw [List.mem_reverse] at h2
  exact (List.dropWhile_sublist (l := l) (p := Char.isWhitespace)).subset h2

/-- Claim C9: every successful normalizeRelativePath result is a nonempty
path whose slash-separated segments are all nonempty and distinct from the
dot and dot-dot segments, it does not start with a separator, and the
container-side write target of writeFileToDockerMount is that path appended
strictly under the /rdx-mcpo mount root; when normalization leaves no
segments the function throws instead. -/
theorem c9_normalize_relative_path_safe (path : String) :
    (∀ s, normalizeRelativePath path = .ok s →
        s ≠ "" ∧
          (∀ seg ∈ splitOnSlash s.data, keepSegmentB seg = true) ∧
          strStartsWithB s "/" = false ∧
          writeFileTargetPath path = .ok ("/rdx-mcpo/" ++ s))
      ∧ ((((splitOnSlash (dropLeadingSlashes (backslashToSlash path.data))).map
            trimChars).filter keepSegmentB) = [] →
          normalizeRelativePath path = .error "Invalid file path for mcpo directory.") := by
  constructor
  · intro s hok
    unfold normalizeRelativePath at hok
    set segs := (((splitOnSlash (dropLeadingSlashes (backslashToSlash path.data))).map
      trimChars).filter keepSegmentB) with hsegs
    by_cases hempty : String.mk (joinSlash segs) = ""
    · rw [if_pos hempty] at hok
      cases hok
    · rw [if_neg hempty] at hok
      have hsval : s = String.mk (joinSlash segs) := by
        cases hok
        rfl
      have hkeep : ∀ seg ∈ segs, keepSegmentB seg = true := fun seg hseg =>
        List.of_mem_filter hseg
      have hnoslash : ∀ p ∈ segs, '/' ∉ p := by
        intro p hp
        have hp2 := List.mem_of_mem_filter hp
        obtain ⟨q, hq, rfl⟩ := List.mem_map.mp hp2
        intro hmem
        exact splitOnSlash_no_slash _ q hq (mem_trimChars hmem)
      have hne : segs ≠ [] := by
        intro hnil
        rw [hnil] at hempty
        exact hempty rfl
      have hsplit : splitOnSlash s.data = segs := by
        rw [hsval]
        exact splitOnSlash_joinSlash segs hne hnoslash
      refine ⟨?_, ?_, ?_, ?_⟩
      · intro he
        rw [he] at hsval
        exact hempty hsval.symm
      · rw [hsplit]
        exact hkeep
      · cases hsegs2 : segs with
        | nil => exact absurd hsegs2 hne
        | cons a rest =>
            have ha : keepSegmentB a = true := hkeep a (hsegs2 ▸ List.mem_cons_self a rest)
            have hane : a ≠ [] := by
              intro he
              rw [he] at ha
              simp [keepSegmentB] at ha
            cases hav : a with
            | nil => exact absurd hav hane
            | cons c cs =>
                have hcslash : ¬c = '/' := by
                  intro he
                  exact hnoslash a (hsegs2 ▸ List.mem_cons_self a rest)
                    (hav ▸ (he ▸ List.mem_cons_self c cs))
                have hdata : ∃ t, s.data = c :: t := by
                  rw [hsval]
                  cases rest with
                  | nil =>
                      exact ⟨cs, by simp [hsegs2, hav, joinSlash]⟩
                  | cons b bs =>
                      refine ⟨cs ++ '/' :: joinSlash (b :: bs), ?_⟩
                      simp [hsegs2, hav, joinSlash]
                obtain ⟨t, ht⟩ := hdata
                simp [strStartsWithB, ht, charsStarts, hcslash]
      · unfold writeFileTargetPath normalizeRelativePath
        rw [← hsegs, if_neg hempty, hsval]
  · intro hnil
    unfold normalizeRelativePath
    rw [hnil]
    simp [joinSlash]

/-- Witness for C9 on a path with a leading slash, a backslash and a dot-dot
segment. -/
theorem c9_witness :
    ("etc/a/b" : String) ≠ "" ∧
      (∀ seg ∈ splitOnSlash ("etc/a/b" : String).data, keepSegmentB seg = true) ∧
      strStartsWithB "etc/a/b" "/" = false ∧
      writeFileTargetPath "/etc/../a\\b" = .ok ("/rdx-mcpo/" ++ "etc/a/b") :=
  (c9_normalize_relative_path_safe "/etc/../a\\b").1 "etc/a/b" (by rfl)

/-- Claim C10: fetchModelDetails is total over every outcome of the HTTP
request, returning the parsed model only on a successful parse and null on
every failure, and a null detail result steers upsertModelWithToolIds into
the create path with no update call. -/
theorem c10_fetch_model_details_total (o : DetailFetchOutcome) :
    (fetchModelDetails o = match o with | .ok m => some m | _ => none)
      ∧ (fetchModelDetails o = none →
          ∀ (upd cr : PostModelResult) (model : ModelSummary) (ids : List String),
            ∃ p, (upsertModelWithToolIds ⟨o, upd, cr⟩ model ids).2 = [.createCall p]) := by
  constructor
  · cases o with
    | ok m => rfl
    | okBadJson => rfl
    | http404 => rfl
    | httpErr s b =>
        simp only [fetchModelDetails, fetchModelDetailsTry]
        by_cases hc : isNotFoundModelResponse s b = true
        · simp [hc]
        · simp [hc]
    | netErr m => rfl
  · intro h upd cr model ids
    simp only [upsertModelWithToolIds, h]
    cases cr <;> exact ⟨_, rfl⟩

/-- Witness for C10 on a network-error outcome. -/
theorem c10_witness :
    fetchModelDetails (.netErr "boom") = none ∧
      ∃ p, (upsertModelWithToolIds ⟨.netErr "boom", .ok, .ok⟩ ⟨"m", none⟩ []).2 =
        [.createCall p] :=
  ⟨(c10_fetch_model_details_total (.netErr "boom")).1,
    (c10_fetch_model_details_total (.netErr "boom")).2 rfl .ok .ok ⟨"m", none⟩ []⟩

/-- Claim C7: when the detail fetch reports the model absent the upsert
issues a single create and never an update; when the detail is present an
update failing with status 404 falls back to create exactly once; any other
update failure is propagated with no create attempt; HTTP 404 and a
not-found error body both count as absent. -/
theorem c7_upsert_control_flow (env : UpsertRemoteBehavior) (model : ModelSummary)
    (toolIds : List String) :
    (fetchModelDetails env.detail = none →
        (upsertModelWithToolIds env model toolIds).2 =
          [.createCall (buildDefaultModelPayload model.id toolIds
            (asObjFields ((model.info).getD (.obj []))))] ∧
        (upsertModelWithToolIds env model toolIds).2.countP ModelApiCall.isUpdate = 0)
      ∧ (∀ existing, fetchModelDetails env.detail = some existing →
          (env.updateResult = .errStatus 404 →
              (upsertModelWithToolIds env model toolIds).2 =
                [.updateCall (upsertPayload existing toolIds),
                  .createCall (upsertPayload existing toolIds)])
            ∧ (∀ status, status ≠ 404 → env.updateResult = .errStatus status →
                (upsertModelWithToolIds env model toolIds).2 =
                    [.updateCall (upsertPayload existing toolIds)] ∧
                  (upsertModelWithToolIds env model toolIds).1 =
                    .error ("Failed to upsert model " ++ model.id))
            ∧ (env.updateResult = .errNet →
                (upsertModelWithToolIds env model toolIds).2 =
                    [.updateCall (upsertPayload existing toolIds)] ∧
                  (upsertModelWithToolIds env model toolIds).1 =
                    .error ("Failed to upsert model " ++ model.id)))
      ∧ fetchModelDetails .http404 = none
      ∧ (∀ status body, isNotFoundModelResponse status body = true →
          fetchModelDetails (.httpErr status body) = none) := by
  obtain ⟨detail, upd, cr⟩ := env
  refine ⟨?_, ?_, rfl, ?_⟩
  · intro h
    simp only [upsertModelWithToolIds, h]
    cases cr <;> simp [List.countP_cons, ModelApiCall.isUpdate]
  · intro existing h
    simp only [upsertModelWithToolIds, h]
    refine ⟨?_, ?_, ?_⟩
    · intro hu
      subst hu
      cases cr <;> simp
    · intro status hne hu
      subst hu
      simp [if_neg hne]
    · intro hu
      subst hu
      simp
  · intro status body h
    simp [fetchModelDetails, fetchModelDetailsTry, h]

/-- Witness for C7: a present model whose update fails with 404 produces an
update followed by exactly one create. -/
theorem c7_witness :
    (upsertModelWithToolIds ⟨.ok (.obj []), .errStatus 404, .ok⟩ ⟨"m", none⟩
        ["server:a"]).2 =
      [.updateCall (upsertPayload (.obj []) ["server:a"]),
        .createCall (upsertPayload (.obj []) ["server:a"])] :=
  ((c7_upsert_control_flow ⟨.ok (.obj []), .errStatus 404, .ok⟩ ⟨"m", none⟩
    ["server:a"]).2.1 (.obj []) rfl).1 rfl

/-- Counterexample for C6: a numeric document is returned verbatim rather
than as the empty mcpServers document, and a parse failure yields the plain
empty object, not \x7bmcpServers:\x7b\x7d\x7d. -/
theorem c6_counterexample :
    parseMcpoConfig "5" = .num 5 ∧
      parseMcpoConfig "5" ≠ .obj [("mcpServers", .obj [])] ∧
      parseMcpoConfig "not json" = .obj [] ∧
      parseMcpoConfig "not json" ≠ .obj [("mcpServers", .obj [])] := by
  refine ⟨by decide, by decide, by decide, by decide⟩

/-- Claim C6 (amended): parseMcpoConfig is total; a parse failure or a null
result yields the plain empty object, and every other parse result, object
or not, is returned verbatim. -/
theorem c6_parse_total (text : String) :
    (parseJson text = none → parseMcpoConfig text = .obj [])
      ∧ (parseJson text = some .null → parseMcpoConfig text = .obj [])
      ∧ (∀ j, parseJson text = some j → j ≠ .null → parseMcpoConfig text = j) := by
  refine ⟨?_, ?_, ?_⟩
  · intro h
    unfold parseMcpoConfig
    rw [h]
  · intro h
    unfold parseMcpoConfig
    rw [h]
    simp
  · intro j h hne
    unfold parseMcpoConfig
    rw [h]
    simp [hne]

/-- Witness for C6 at a non-object document. -/
theorem c6_witness : parseMcpoConfig "5" = .num 5 :=
  (c6_parse_total "5").2.2 (.num 5) (by decide) (by decide)

theorem natStr_inj {m n : Nat} (h : natStr m = natStr n) : m = n := by
  have hd : natChars m = natChars n := by
    have := congrArg String.data h
    simpa [natStr] using this
  have := digitsVal_natChars_zero m
  rw [hd, digitsVal_natChars_zero n] at this
  exact this.symm

theorem getD_set_self {α : Type} (l : List α) (i : Nat) (a d : α) (h : i < l.length) :
    (l.set i a).getD i d = a := by
  simp [List.getD_eq_getElem?_getD, List.getElem?_set_self, h]

theorem objGet_objSet_ne (fs : List (String × Json)) (k k' : String) (v : Json)
    (h : ¬k' = k) : objGet (objSet fs k v) k' = objGet fs k' := by
  induction fs with
  | nil => simp [objSet, objGet, Ne.symm h]
  | cons f fs ih =>
      by_cases hk : f.1 = k
      · simp [objSet, objGet, hk, Ne.symm h]
      · simp [objSet, objGet, hk, ih]

theorem normalizedProxyEntry_fields (te : List (String × Json)) :
    objGet (normalizedProxyEntry te) "enable" = some (.bool true) ∧
      objGet (normalizedProxyEntry te) "connection_type" = some (.str "external") ∧
      objGet (normalizedProxyEntry te) "auth_type" = some (.str "bearer") := by
  unfold normalizedProxyEntry
  refine ⟨?_, ?_, ?_⟩
  · rw [objGet_objSet_ne _ _ _ _ (by decide), objGet_objSet_ne _ _ _ _ (by decide),
      objGet_objSet_ne _ _ _ _ (by decide), objGet_objSet_ne _ _ _ _ (by decide),
      objGet_objSet_ne _ _ _ _ (by decide), objGet_objSet_self]
  · rw [objGet_objSet_ne _ _ _ _ (by decide), objGet_objSet_self]
  · rw [objGet_objSet_self]

theorem objGet_enumFrom (l : List (List (String × Json))) : ∀ (k i : Nat),
    i < l.length →
    objGet ((l.enumFrom k).map (fun p => (natStr p.1, Json.obj p.2))) (natStr (k + i)) =
      some (.obj (l.getD i [])) := by
  induction l with
  | nil => intro k i h; simp at h
  | cons a rest ih =>
      intro k i h
      cases i with
      | zero =>
          simp [List.enumFrom, objGet]
      | succ j =>
          have hj : j < rest.length := by simpa using Nat.lt_of_succ_lt_succ h
          have hne : ¬natStr k = natStr (k + 1 + j) := by
            intro he
            have := natStr_inj he
            omega
          have hkj : k + (j + 1) = k + 1 + j := by omega
          rw [hkj]
          simp only [List.enumFrom, List.map_cons, objGet, if_neg hne, List.getD_cons_succ]
          exact ih (k + 1) j hj

theorem findIdx?_some_spec (p : String → Bool) : ∀ (l : List String) (s i : Nat),
    List.findIdx? p l s = some i →
    s ≤ i ∧ i - s < l.length ∧ p (l.getD (i - s) "") = true := by
  intro l
  induction l with
  | nil => intro s i h; simp [List.findIdx?_nil] at h
  | cons a rest ih =>
      intro s i h
      rw [List.findIdx?_cons] at h
      by_cases hp : p a
      · rw [if_pos hp] at h
        cases h
        refine ⟨Nat.le_refl _, by simp, ?_⟩
        simpa using hp
      · rw [if_neg hp] at h
        obtain ⟨hle, hlt, hpj⟩ := ih (s + 1) i h
        refine ⟨by omega, ?_, ?_⟩
        · simp only [List.length_cons]
          omega
        · have his : i - s = (i - (s + 1)) + 1 := by omega
          rw [his]
          simpa using hpj

theorem findIdx?_zero_spec (p : String → Bool) (l : List String) (i : Nat)
    (h : List.findIdx? p l = some i) : i < l.length ∧ p (l.getD i "") = true := by
  have hs := findIdx?_some_spec p l 0 i h
  exact ⟨by simpa using hs.2.1, by simpa using hs.2.2⟩

theorem padKeys_length (keys : List String) (n : Nat) : (padKeys keys n).length = n := by
  simp [padKeys]
  omega

theorem proxyConfigsArray_length (r : List (String × Json)) (n : Nat) :
    (proxyConfigsArray r n).length = n := by
  simp [proxyConfigsArray]

theorem keys3_getD (keys : List String) (n i : Nat) (k : String) (hi : i < n) :
    (if !((padKeys keys n).getD i "" == k) then (padKeys keys n).set i k
      else padKeys keys n).getD i "" = k := by
  by_cases hc : ((padKeys keys n).getD i "" == k) = true
  · rw [if_neg (by rw [hc]; simp)]
    exact eq_of_beq hc
  · have hcf : ((padKeys keys n).getD i "" == k) = false := by
      cases hb : ((padKeys keys n).getD i "" == k) with
      | true => exact absurd hb hc
      | false => rfl
    rw [if_pos (by rw [hcf]; simp)]
    exact getD_set_self _ i k "" (by rw [padKeys_length]; exact hi)

theorem configs2_getD (ca : List (List (String × Json))) (i : Nat) (hi : i < ca.length) :
    (if !(decide (ca.getD i [] = normalizedProxyEntry (ca.getD i []))) then
        ca.set i (normalizedProxyEntry (ca.getD i [])) else ca).getD i [] =
      normalizedProxyEntry (ca.getD i []) := by
  by_cases hc : ca.getD i [] = normalizedProxyEntry (ca.getD i [])
  · rw [if_neg (by rw [decide_eq_true hc]; simp)]
    exact hc
  · rw [if_pos (by rw [decide_eq_false hc]; simp)]
    exact getD_set_self _ i _ [] hi

theorem objGet_configs_enum (ca : List (List (String × Json))) (i : Nat)
    (hi : i < ca.length) :
    objGet ((ca.enum).map (fun p => (natStr p.1, Json.obj p.2))) (natStr i) =
      some (.obj (ca.getD i [])) := by
  have hz := objGet_enumFrom ca 0 i hi
  simpa [List.enum] using hz

theorem computeCore_spec (trimmed apiKey : String) (baseUrls keys : List String)
    (rawConfigs : List (String × Json)) (enabled : Bool) :
    (computeCore trimmed apiKey baseUrls keys rawConfigs enabled).2.ENABLE_OPENAI_API = true ∧
      (toStringArray
          (computeCore trimmed apiKey baseUrls keys rawConfigs enabled).2.OPENAI_API_KEYS).length
        = (toStringArray
          (computeCore trimmed apiKey baseUrls keys rawConfigs
            enabled).2.OPENAI_API_BASE_URLS).length ∧
      (∃ i, i < (toStringArray
            (computeCore trimmed apiKey baseUrls keys rawConfigs
              enabled).2.OPENAI_API_BASE_URLS).length ∧
        normalizeBaseUrl ((toStringArray
            (computeCore trimmed apiKey baseUrls keys rawConfigs
              enabled).2.OPENAI_API_BASE_URLS).getD i "") = normalizeBaseUrl trimmed ∧
        (toStringArray
            (computeCore trimmed apiKey baseUrls keys rawConfigs
              enabled).2.OPENAI_API_KEYS).getD i "" = apiKey ∧
        ∃ entry, objGet (asObjFields
            (computeCore trimmed apiKey baseUrls keys rawConfigs
              enabled).2.OPENAI_API_CONFIGS) (natStr i) = some (.obj entry) ∧
          objGet entry "enable" = some (.bool true) ∧
          objGet entry "connection_type" = some (.str "external") ∧
          objGet entry "auth_type" = some (.str "bearer")) ∧
      ((∀ url ∈ baseUrls, ¬normalizeBaseUrl url = normalizeBaseUrl trimmed) →
        toStringArray
            (computeCore trimmed apiKey baseUrls keys rawConfigs
              enabled).2.OPENAI_API_BASE_URLS = baseUrls ++ [trimmed]) ∧
      ((∃ url ∈ baseUrls, normalizeBaseUrl url = normalizeBaseUrl trimmed) →
        toStringArray
            (computeCore trimmed apiKey baseUrls keys rawConfigs
              enabled).2.OPENAI_API_BASE_URLS = baseUrls) := by
  rcases hidx : ensureIndex baseUrls (normalizeBaseUrl trimmed) with _ | i
  · simp only [computeCore, hidx, Option.isNone_none, if_true, filterMap_str_map,
      toStringArray, asObjFields]
    refine ⟨trivial, ?_, ?_, ?_, ?_⟩
    · rw [apply_ite List.length]
      simp [padKeys_length]
    · refine ⟨baseUrls.length, ?_, ?_, ?_, ?_⟩
      · simp
      · rw [List.getD_eq_getElem?_getD, List.getElem?_concat_length]
        rfl
      · exact keys3_getD keys (baseUrls ++ [trimmed]).length baseUrls.length apiKey
          (by simp)
      · refine ⟨normalizedProxyEntry ((proxyConfigsArray rawConfigs
            (baseUrls ++ [trimmed]).length).getD baseUrls.length []), ?_,
          (normalizedProxyEntry_fields _).1, (normalizedProxyEntry_fields _).2.1,
          (normalizedProxyEntry_fields _).2.2⟩
        rw [objGet_configs_enum _ baseUrls.length
          (by rw [apply_ite List.length]; simp [proxyConfigsArray_length])]
        rw [configs2_getD _ baseUrls.length (by simp [proxyConfigsArray_length])]
    · intro _
      trivial
    · rintro ⟨url, hmem, hequ⟩
      have hall : ∀ x ∈ baseUrls, ¬normalizeBaseUrl x = normalizeBaseUrl trimmed := by
        simpa [ensureIndex] using hidx
      exact absurd hequ (hall url hmem)
  · have hspec := findIdx?_zero_spec (fun url => normalizeBaseUrl url ==
      normalizeBaseUrl trimmed) baseUrls i (by simpa [ensureIndex] using hidx)
    obtain ⟨hilt, hip⟩ := hspec
    simp only [computeCore, hidx, Option.isNone_some, if_false, Bool.false_eq_true,
      filterMap_str_map, toStringArray, asObjFields]
    refine ⟨trivial, ?_, ?_, ?_, ?_⟩
    · rw [apply_ite List.length]
      simp [padKeys_length]
    · refine ⟨i, hilt, ?_, ?_, ?_⟩
      · exact eq_of_beq hip
      · exact keys3_getD keys baseUrls.length i apiKey hilt
      · refine ⟨normalizedProxyEntry ((proxyConfigsArray rawConfigs
            baseUrls.length).getD i []), ?_,
          (normalizedProxyEntry_fields _).1, (normalizedProxyEntry_fields _).2.1,
          (normalizedProxyEntry_fields _).2.2⟩
        rw [objGet_configs_enum _ i
          (by rw [apply_ite List.length]; simp [proxyConfigsArray_length, hilt])]
        rw [configs2_getD _ i (by simp [proxyConfigsArray_length, hilt])]
    · intro hall
      have hmem : baseUrls.getD i "" ∈ baseUrls := by
        rw [List.getD_eq_getElem?_getD, List.getElem?_eq_getElem hilt]
        exact List.getElem_mem hilt
      exact absurd (eq_of_beq hip) (hall _ hmem)
    · intro _
      trivial

def c8Entry : List (String × Json) :=
  [("enable", .bool true), ("tags", .arr []), ("prefix_id", .str ""),
    ("model_ids", .arr []), ("connection_type", .str "external"),
    ("auth_type", .str "bearer")]

/-- A fetched config whose key list is one longer than its url list while
everything else is already in the ensurer's normalized shape. -/
def c8Cfg : OpenWebUIConfig :=
  ⟨true, .arr [.str DEFAULT_OPENAI_PROXY_BASE_URL],
    .arr [.str DEFAULT_OPENAI_PROXY_KEY, .str "extra"],
    .obj [("0", .obj c8Entry)]⟩

/-- Counterexample for C8: on c8Cfg the changed flag stays false, so no
write-back happens and the run leaves the remote key list longer than the
url list, although the recomputed tuple differs from the fetched one; key
truncation alone never sets the changed flag. -/
theorem c8_counterexample :
    (ensureOpenAiProxyConnectionCompute DEFAULT_OPENAI_PROXY_BASE_URL
        DEFAULT_OPENAI_PROXY_KEY c8Cfg).1 = false ∧
      ensureOpenAiProxyConnectionRun DEFAULT_OPENAI_PROXY_BASE_URL
        DEFAULT_OPENAI_PROXY_KEY c8Cfg = (c8Cfg, false) ∧
      (ensureOpenAiProxyConnectionCompute DEFAULT_OPENAI_PROXY_BASE_URL
        DEFAULT_OPENAI_PROXY_KEY c8Cfg).2 ≠ c8Cfg ∧
      (toStringArray c8Cfg.OPENAI_API_KEYS).length ≠
        (toStringArray c8Cfg.OPENAI_API_BASE_URLS).length := by
  refine ⟨by decide, by decide, by decide, by decide⟩

/-- Claim C8 (amended): the recomputed tuple always has the OpenAI API
enabled, its key list exactly as long as its url list, and some index holding
a url normalizing to the target, the api key, and a config entry normalized
to enable true, connection_type external and auth_type bearer; the target url
is appended when no fetched url normalizes to it; the write-back persists the
recomputed tuple exactly when the changed flag is set and otherwise the
fetched config is left untouched even if it differs from the recomputed
tuple. -/
theorem c8_ensure_proxy_connection (baseUrl apiKey : String) (config : OpenWebUIConfig)
    (b : Bool) (next : OpenWebUIConfig)
    (h : ensureOpenAiProxyConnectionCompute baseUrl apiKey config = (b, next)) :
    (b = false →
        ensureOpenAiProxyConnectionRun baseUrl apiKey config = (config, false)) ∧
      (b = true → ensureOpenAiProxyConnectionRun baseUrl apiKey config = (next, true)) ∧
      next.ENABLE_OPENAI_API = true ∧
      (toStringArray next.OPENAI_API_KEYS).length =
        (toStringArray next.OPENAI_API_BASE_URLS).length ∧
      (∃ i, i < (toStringArray next.OPENAI_API_BASE_URLS).length ∧
        normalizeBaseUrl ((toStringArray next.OPENAI_API_BASE_URLS).getD i "") =
          normalizeBaseUrl (strTrim baseUrl) ∧
        (toStringArray next.OPENAI_API_KEYS).getD i "" = apiKey ∧
        ∃ entry, objGet (asObjFields next.OPENAI_API_CONFIGS) (natStr i) =
            some (.obj entry) ∧
          objGet entry "enable" = some (.bool true) ∧
          objGet entry "connection_type" = some (.str "external") ∧
          objGet entry "auth_type" = some (.str "bearer")) ∧
      ((∀ url ∈ toStringArray config.OPENAI_API_BASE_URLS,
          ¬normalizeBaseUrl url = normalizeBaseUrl (strTrim baseUrl)) →
        toStringArray next.OPENAI_API_BASE_URLS =
          toStringArray config.OPENAI_API_BASE_URLS ++ [strTrim baseUrl]) ∧
      ((∃ url ∈ toStringArray config.OPENAI_API_BASE_URLS,
          normalizeBaseUrl url = normalizeBaseUrl (strTrim baseUrl)) →
        toStringArray next.OPENAI_API_BASE_URLS =
          toStringArray config.OPENAI_API_BASE_URLS) := by
  have hc : computeCore (strTrim baseUrl) apiKey (toStringArray config.OPENAI_API_BASE_URLS)
      (toStringArray config.OPENAI_API_KEYS)
      (match config.OPENAI_API_CONFIGS with | .obj fs => fs | _ => [])
      config.ENABLE_OPENAI_API = (b, next) := h
  have hnext : next = (computeCore (strTrim baseUrl) apiKey
      (toStringArray config.OPENAI_API_BASE_URLS)
      (toStringArray config.OPENAI_API_KEYS)
      (match config.OPENAI_API_CONFIGS with | .obj fs => fs | _ => [])
      config.ENABLE_OPENAI_API).2 := by rw [hc]
  have hspec := computeCore_spec (strTrim baseUrl) apiKey
    (toStringArray config.OPENAI_API_BASE_URLS)
    (toStringArray config.OPENAI_API_KEYS)
    (match config.OPENAI_API_CONFIGS with | .obj fs => fs | _ => [])
    config.ENABLE_OPENAI_API
  refine ⟨?_, ?_, ?_, ?_, ?_, ?_, ?_⟩
  · intro hb
    subst hb
    simp [ensureOpenAiProxyConnectionRun, h]
  · intro hb
    subst hb
    simp [ensureOpenAiProxyConnectionRun, h]
  · rw [hnext]
    exact hspec.1
  · rw [hnext]
    exact hspec.2.1
  · rw [hnext]
    exact hspec.2.2.1
  · rw [hnext]
    exact hspec.2.2.2.1
  · rw [hnext]
    exact hspec.2.2.2.2

/-- Witness for C8 on an empty fetched config: the target url is appended and
the changed write-back happens. -/
theorem c8_witness :
    ensureOpenAiProxyConnectionRun "http://x/" "k" ⟨false, .arr [], .arr [], .obj []⟩ =
      ((ensureOpenAiProxyConnectionCompute "http://x/" "k"
        ⟨false, .arr [], .arr [], .obj []⟩).2, true) :=
  (c8_ensure_proxy_connection "http://x/" "k" ⟨false, .arr [], .arr [], .obj []⟩
      (ensureOpenAiProxyConnectionCompute "http://x/" "k"
        ⟨false, .arr [], .arr [], .obj []⟩).1
      (ensureOpenAiProxyConnectionCompute "http://x/" "k"
        ⟨false, .arr [], .arr [], .obj []⟩).2 rfl).2.1 (by decide)

theorem placeholder_tame : tameStrB MCPO_SENSITIVE_PLACEHOLDER = true := by decide

theorem maskEnvEntry_fst (sid : String) (p : String × Json) :
    (maskEnvEntry sid p).1.1 = p.1 := by
  obtain ⟨k, v⟩ := p
  cases v with
  | str s =>
      by_cases hs : isSensitiveEnvKey k
      · simp [maskEnvEntry, hs]
      · simp [maskEnvEntry, hs]
  | null => rfl
  | bool b => rfl
  | num n => rfl
  | arr xs => rfl
  | obj gs => rfl

theorem maskEnvEntry_tame (sid : String) (p : String × Json) (h : tameB p.2 = true) :
    tameB (maskEnvEntry sid p).1.2 = true := by
  obtain ⟨k, v⟩ := p
  cases v with
  | str s =>
      by_cases hs : isSensitiveEnvKey k
      · simp [maskEnvEntry, hs, tameB, placeholder_tame]
      · simpa [maskEnvEntry, hs] using h
  | null => exact h
  | bool b => exact h
  | num n => exact h
  | arr xs => exact h
  | obj gs => exact h

theorem unmask_mask_env (mp : List (String × String)) (sid : String) (p : String × Json)
    (hnd : (mp.map Prod.fst).Nodup)
    (hmem : ∀ q, (maskEnvEntry sid p).2 = some q → q ∈ mp) :
    unmaskEnvEntry mp sid (maskEnvEntry sid p).1 = (p, ((maskEnvEntry sid p).2).isSome) := by
  obtain ⟨k, v⟩ := p
  cases v with
  | str s =>
      by_cases hs : isSensitiveEnvKey k
      · have hq : (buildEnvPath sid k, s) ∈ mp := hmem _ (by simp [maskEnvEntry, hs])
        have hl := lookupStr_of_mem_nodup mp _ s hq hnd
        simp [maskEnvEntry, hs, unmaskEnvEntry, hl]
      · simp [maskEnvEntry, hs, unmaskEnvEntry]
  | null => rfl
  | bool b => rfl
  | num n => rfl
  | arr xs => rfl
  | obj gs => rfl

theorem unmaskEnvEntry_nil (sid : String) (p : String × Json) :
    unmaskEnvEntry [] sid p = (p, false) := by
  obtain ⟨k, v⟩ := p
  cases v with
  | str s =>
      by_cases hs : isSensitiveEnvKey k
      · by_cases hv : s = MCPO_SENSITIVE_PLACEHOLDER
        · simp [unmaskEnvEntry, hs, hv, lookupStr]
        · simp [unmaskEnvEntry, hs, hv]
      · simp [unmaskEnvEntry, hs]
  | null => rfl
  | bool b => rfl
  | num n => rfl
  | arr xs => rfl
  | obj gs => rfl

theorem any_isSome_filterMap {α β : Type} (l : List α) (f : α → Option β) :
    l.any (fun x => (f x).isSome) = !(l.filterMap f).isEmpty := by
  induction l with
  | nil => simp
  | cons a t ih =>
      cases hf : f a with
      | none => simp [List.filterMap_cons, hf, ih]
      | some b => simp [List.filterMap_cons, hf]

theorem tameO_objGet (fs : List (String × Json)) (k : String) (v : Json)
    (h : tameO fs = true) (hg : objGet fs k = some v) : tameB v = true := by
  induction fs with
  | nil => simp [objGet] at hg
  | cons f fs ih =>
      simp only [tameO, Bool.and_eq_true] at h
      by_cases hk : f.1 = k
      · simp only [objGet, if_pos hk] at hg
        cases hg
        exact h.1.2
      · simp only [objGet, if_neg hk] at hg
        exact ih h.2 hg

theorem tameO_objReplaceFirst (fs : List (String × Json)) (k : String) (v : Json)
    (h : tameO fs = true) (hv : tameB v = true) :
    tameO (objReplaceFirst fs k v) = true := by
  induction fs with
  | nil => simpa [objReplaceFirst] using h
  | cons f fs ih =>
      simp only [tameO, Bool.and_eq_true] at h
      by_cases hk : f.1 = k
      · simp only [objReplaceFirst, if_pos hk, tameO, Bool.and_eq_true]
        exact ⟨⟨hk ▸ h.1.1, hv⟩, h.2⟩
      · simp only [objReplaceFirst, if_neg hk, tameO, Bool.and_eq_true]
        exact ⟨h.1, ih h.2⟩

theorem maskedEnv_fst (sid : String) (l : List (String × Json)) :
    ((l.map (maskEnvEntry sid)).map Prod.fst).map Prod.fst = l.map Prod.fst := by
  induction l with
  | nil => rfl
  | cons p t ih => simp [maskEnvEntry_fst, ih]

theorem maskedEnv_tameO (sid : String) (l : List (String × Json)) (h : tameO l = true) :
    tameO ((l.map (maskEnvEntry sid)).map Prod.fst) = true := by
  induction l with
  | nil => rfl
  | cons p t ih =>
      simp only [tameO, Bool.and_eq_true] at h
      simp only [List.map_cons, tameO, Bool.and_eq_true]
      exact ⟨⟨maskEnvEntry_fst sid p ▸ h.1.1, maskEnvEntry_tame sid p h.1.2⟩, ih h.2⟩

theorem maskServerDef_tame (sid : String) (d : Json) (h : tameB d = true) :
    tameB (maskServerDef sid d).1 = true := by
  cases d with
  | obj dfs =>
      cases henv : objGet dfs "env" with
      | none => simpa [maskServerDef, henv] using h
      | some ev =>
          cases ev with
          | obj envFields =>
              simp only [tameB, Bool.and_eq_true, decide_eq_true_eq] at h
              have henvTame : tameB (.obj envFields) = true :=
                tameO_objGet dfs "env" _ h.2 henv
              simp only [tameB, Bool.and_eq_true, decide_eq_true_eq] at henvTame
              simp only [maskServerDef, henv, tameB, Bool.and_eq_true, decide_eq_true_eq]
              refine ⟨by rw [objReplaceFirst_map_fst]; exact h.1, ?_⟩
              refine tameO_objReplaceFirst dfs "env" _ h.2 ?_
              simp only [tameB, Bool.and_eq_true, decide_eq_true_eq]
              exact ⟨by rw [maskedEnv_fst]; exact henvTame.1,
                maskedEnv_tameO sid envFields henvTame.2⟩
          | null => simpa [maskServerDef, henv] using h
          | bool b => simpa [maskServerDef, henv] using h
          | num n => simpa [maskServerDef, henv] using h
          | str s => simpa [maskServerDef, henv] using h
          | arr xs => simpa [maskServerDef, henv] using h
  | null => exact h
  | bool b => exact h
  | num n => exact h
  | str s => exact h
  | arr xs => exact h

theorem maskServers_fst (l : List (String × Json)) :
    (l.map (fun p => (p.1, (maskServerDef p.1 p.2).1))).map Prod.fst = l.map Prod.fst := by
  simp

theorem maskServers_tameO (l : List (String × Json)) (h : tameO l = true) :
    tameO (l.map (fun p => (p.1, (maskServerDef p.1 p.2).1))) = true := by
  induction l with
  | nil => rfl
  | cons p t ih =>
      simp only [tameO, Bool.and_eq_true] at h
      simp only [List.map_cons, tameO, Bool.and_eq_true]
      exact ⟨⟨h.1.1, maskServerDef_tame p.1 p.2 h.1.2⟩, ih h.2⟩

theorem map_pair_fst {α β : Type} (l : List α) (f : α → β) :
    (l.map (fun q => (q, f q))).map Prod.fst = l := by
  induction l with
  | nil => rfl
  | cons a t ih => simp [ih]

theorem any_pair_snd {α : Type} (l : List α) (f : α → Bool) :
    (l.map (fun q => (q, f q))).any Prod.snd = l.any f := by
  induction l with
  | nil => rfl
  | cons a t ih => simp [ih]

theorem unmaskServerPair_nil (p : String × Json) : unmaskServerPair [] p = (p, false) := by
  obtain ⟨sid, d⟩ := p
  cases d with
  | obj dfs =>
      cases henv : objGet dfs "env" with
      | none => simp [unmaskServerPair, henv]
      | some ev =>
          cases ev with
          | obj envFields =>
              have hes : envFields.map (unmaskEnvEntry [] sid) =
                  envFields.map (fun q => (q, false)) :=
                List.map_congr_left (fun q _ => unmaskEnvEntry_nil sid q)
              simp only [unmaskServerPair, henv]
              rw [hes, map_pair_fst, any_pair_snd,
                objReplaceFirst_of_objGet dfs "env" _ henv]
              simp
          | null => simp [unmaskServerPair, henv]
          | bool b => simp [unmaskServerPair, henv]
          | num n => simp [unmaskServerPair, henv]
          | str s => simp [unmaskServerPair, henv]
          | arr xs => simp [unmaskServerPair, henv]
  | null => rfl
  | bool b => rfl
  | num n => rfl
  | str s => rfl
  | arr xs => rfl

theorem unmask_mask_server (mp : List (String × String)) (sid : String) (d : Json)
    (hnd : (mp.map Prod.fst).Nodup)
    (hmem : ∀ q ∈ (maskServerDef sid d).2, q ∈ mp) :
    unmaskServerPair mp (sid, (maskServerDef sid d).1) =
      ((sid, d), !((maskServerDef sid d).2).isEmpty) := by
  cases d with
  | obj dfs =>
      cases henv : objGet dfs "env" with
      | none => simp [maskServerDef, henv, unmaskServerPair]
      | some ev =>
          cases ev with
          | obj envFields =>
              simp only [maskServerDef, henv] at hmem ⊢
              have hget : objGet (objReplaceFirst dfs "env"
                  (.obj ((envFields.map (maskEnvEntry sid)).map Prod.fst))) "env" =
                  some (.obj ((envFields.map (maskEnvEntry sid)).map Prod.fst)) :=
                objGet_objReplaceFirst_self dfs "env" _ _ henv
              simp only [unmaskServerPair, hget]
              have hes : ((envFields.map (maskEnvEntry sid)).map Prod.fst).map
                  (unmaskEnvEntry mp sid) =
                  envFields.map (fun q => (q, ((maskEnvEntry sid q).2).isSome)) := by
                rw [List.map_map, List.map_map]
                refine List.map_congr_left ?_
                intro q hq
                refine unmask_mask_env mp sid q hnd ?_
                intro r hr
                refine hmem r (List.mem_filterMap.mpr
                  ⟨maskEnvEntry sid q, List.mem_map_of_mem _ hq, hr⟩)
              rw [hes, map_pair_fst, any_pair_snd, objReplaceFirst_objReplaceFirst,
                objReplaceFirst_of_objGet dfs "env" _ henv, any_isSome_filterMap,
                List.filterMap_map]
              rfl
          | null => simp [maskServerDef, henv, unmaskServerPair]
          | bool b => simp [maskServerDef, henv, unmaskServerPair]
          | num n => simp [maskServerDef, henv, unmaskServerPair]
          | str s => simp [maskServerDef, henv, unmaskServerPair]
          | arr xs => simp [maskServerDef, henv, unmaskServerPair]
  | null => rfl
  | bool b => rfl
  | num n => rfl
  | str s => rfl
  | arr xs => rfl

theorem any_bang_isEmpty_flatten {α β : Type} (l : List α) (f : α → List β) :
    l.any (fun x => !(f x).isEmpty) = !((l.map f).flatten).isEmpty := by
  induction l with
  | nil => rfl
  | cons a t ih =>
      cases hfa : f a with
      | nil => simp [List.any_cons, ih, hfa]
      | cons b bs => simp [List.any_cons, hfa]

theorem maskServers_one (servers : List (String × Json)) :
    (maskServers servers).1 = servers.map (fun p => (p.1, (maskServerDef p.1 p.2).1)) := rfl

theorem maskServers_two (servers : List (String × Json)) :
    (maskServers servers).2 =
      (servers.map (fun p => (maskServerDef p.1 p.2).2)).flatten := rfl

/-- Claim C5 (amended): for a document in the printer's canonical form whose
JSON value is tame and whose mask map carries pairwise distinct paths, the
mask round-trip law holds: unmasking the masked text with the produced map
returns exactly the original text. -/
theorem c5_mask_roundtrip_canonical (x : String) (fs : List (String × Json))
    (hx : x = stringify2 (.obj fs)) (ht : tameB (.obj fs) = true)
    (hnd : ((maskSensitiveEnvValues x).2.map Prod.fst).Nodup) :
    unmaskSensitiveEnvValues (maskSensitiveEnvValues x).1 (maskSensitiveEnvValues x).2 =
      .ok x := by
  subst hx
  have hp : parseJson (stringify2 (Json.obj fs)) = some (.obj fs) :=
    parseJson_stringify2 _ ht
  simp only [tameB, Bool.and_eq_true, decide_eq_true_eq] at ht
  rcases hms : objGet fs "mcpServers" with _ | mv
  · have hmask : maskSensitiveEnvValues (stringify2 (Json.obj fs)) =
        (stringify2 (Json.obj fs), []) := by
      unfold maskSensitiveEnvValues
      simp only [hp, hms]
    rw [hmask]
    unfold unmaskSensitiveEnvValues
    simp only [hp, hms]
  · cases mv with
    | obj servers =>
        have htS : tameB (.obj servers) = true := tameO_objGet fs "mcpServers" _ ht.2 hms
        simp only [tameB, Bool.and_eq_true, decide_eq_true_eq] at htS
        by_cases hflat : (maskServers servers).2 = []
        · have hmask : maskSensitiveEnvValues (stringify2 (Json.obj fs)) =
              (stringify2 (Json.obj fs), []) := by
            unfold maskSensitiveEnvValues
            simp only [hp, hms]
            rw [if_pos hflat]
          rw [hmask]
          unfold unmaskSensitiveEnvValues
          simp only [hp, hms]
          have hrs : servers.map (unmaskServerPair []) =
              servers.map (fun p => (p, false)) :=
            List.map_congr_left (fun p _ => unmaskServerPair_nil p)
          rw [hrs, any_pair_snd]
          simp
        · have hmask : maskSensitiveEnvValues (stringify2 (Json.obj fs)) =
              (stringify2 (.obj (objReplaceFirst fs "mcpServers"
                (.obj (maskServers servers).1))), (maskServers servers).2) := by
            unfold maskSensitiveEnvValues
            simp only [hp, hms]
            rw [if_neg hflat]
          rw [hmask] at hnd ⊢
          have htr : tameB (.obj (objReplaceFirst fs "mcpServers"
              (.obj (maskServers servers).1))) = true := by
            simp only [tameB, Bool.and_eq_true, decide_eq_true_eq]
            refine ⟨by rw [objReplaceFirst_map_fst]; exact ht.1, ?_⟩
            refine tameO_objReplaceFirst fs "mcpServers" _ ht.2 ?_
            simp only [tameB, Bool.and_eq_true, decide_eq_true_eq]
            constructor
            · rw [maskServers_one, maskServers_fst]
              exact htS.1
            · rw [maskServers_one]
              exact maskServers_tameO servers htS.2
          have hp' : parseJson (stringify2 (.obj (objReplaceFirst fs "mcpServers"
              (.obj (maskServers servers).1)))) =
              some (.obj (objReplaceFirst fs "mcpServers"
                (.obj (maskServers servers).1))) :=
            parseJson_stringify2 _ htr
          unfold unmaskSensitiveEnvValues
          simp only [hp']
          have hget : objGet (objReplaceFirst fs "mcpServers"
              (.obj (maskServers servers).1)) "mcpServers" =
              some (.obj (maskServers servers).1) :=
            objGet_objReplaceFirst_self fs "mcpServers" _ _ hms
          simp only [hget]
          have hrs : (maskServers servers).1.map
              (unmaskServerPair (maskServers servers).2) =
              servers.map (fun p => (p, !((maskServerDef p.1 p.2).2).isEmpty)) := by
            rw [maskServers_one, List.map_map]
            refine List.map_congr_left ?_
            intro p hpmem
            show unmaskServerPair (maskServers servers).2
              (p.1, (maskServerDef p.1 p.2).1) = _
            refine unmask_mask_server (maskServers servers).2 p.1 p.2 hnd ?_
            intro q hq
            rw [maskServers_two]
            exact List.mem_flatten.mpr
              ⟨(maskServerDef p.1 p.2).2,
                List.mem_map_of_mem (fun p => (maskServerDef p.1 p.2).2) hpmem, hq⟩
          rw [hrs, map_pair_fst, any_pair_snd]
          have hany : servers.any (fun p => !((maskServerDef p.1 p.2).2).isEmpty) =
              true := by
            rw [any_bang_isEmpty_flatten]
            rw [maskServers_two] at hflat
            simp only [Bool.not_eq_true']
            cases he : ((servers.map (fun p => (maskServerDef p.1 p.2).2)).flatten).isEmpty with
            | true => exact absurd (List.isEmpty_iff.mp he) hflat
            | false => rfl
          rw [hany]
          simp only [if_true]
          rw [objReplaceFirst_objReplaceFirst,
            objReplaceFirst_of_objGet fs "mcpServers" _ hms]
    | null =>
        have hmask : maskSensitiveEnvValues (stringify2 (Json.obj fs)) =
            (stringify2 (Json.obj fs), []) := by
          unfold maskSensitiveEnvValues
          simp only [hp, hms]
        rw [hmask]
        unfold unmaskSensitiveEnvValues
        simp only [hp, hms]
    | bool b =>
        have hmask : maskSensitiveEnvValues (stringify2 (Json.obj fs)) =
            (stringify2 (Json.obj fs), []) := by
          unfold maskSensitiveEnvValues
          simp only [hp, hms]
        rw [hmask]
        unfold unmaskSensitiveEnvValues
        simp only [hp, hms]
    | num n =>
        have hmask : maskSensitiveEnvValues (stringify2 (Json.obj fs)) =
            (stringify2 (Json.obj fs), []) := by
          unfold maskSensitiveEnvValues
          simp only [hp, hms]
        rw [hmask]
        unfold unmaskSensitiveEnvValues
        simp only [hp, hms]
    | str s =>
        have hmask : maskSensitiveEnvValues (stringify2 (Json.obj fs)) =
            (stringify2 (Json.obj fs), []) := by
          unfold maskSensitiveEnvValues
          simp only [hp, hms]
        rw [hmask]
        unfold unmaskSensitiveEnvValues
        simp only [hp, hms]
    | arr xs =>
        have hmask : maskSensitiveEnvValues (stringify2 (Json.obj fs)) =
            (stringify2 (Json.obj fs), []) := by
          unfold maskSensitiveEnvValues
          simp only [hp, hms]
        rw [hmask]
        unfold unmaskSensitiveEnvValues
        simp only [hp, hms]

deriving instance DecidableEq for Except

/-- A minified document with one sensitive env value. -/
def c5Min : String :=
  "\x7b\"mcpServers\":\x7b\"a\":\x7b\"env\":\x7b\"API_KEY\":\"s\"\x7d\x7d\x7d\x7d"

/-- Counterexample for C5: masking a minified document pretty-prints it, so
unmasking the masked text returns the two-space-indented rendering, not the
original text, although the mask map is nonempty and no value was edited. -/
theorem c5_counterexample :
    (maskSensitiveEnvValues c5Min).2 ≠ [] ∧
      unmaskSensitiveEnvValues (maskSensitiveEnvValues c5Min).1
        (maskSensitiveEnvValues c5Min).2 ≠ .ok c5Min := by
  refine ⟨by decide, by decide⟩

def c5Fs : List (String × Json) :=
  [("mcpServers", .obj [("a", .obj [("env", .obj
    [("API_KEY", .str "s"), ("PORT", .str "1")])])])]

/-- Witness for C5 on a canonical-form document holding one sensitive and one
non-sensitive env key. -/
theorem c5_witness :
    unmaskSensitiveEnvValues
        (maskSensitiveEnvValues (stringify2 (.obj c5Fs))).1
        (maskSensitiveEnvValues (stringify2 (.obj c5Fs))).2 =
      .ok (stringify2 (.obj c5Fs)) :=
  c5_mask_roundtrip_canonical (stringify2 (.obj c5Fs)) c5Fs rfl (by decide) (by decide)
